import Mathlib

/-!
Verification of the attribute-span map and the text-layout buffer of this
repository (`src/attrs.rs`, `src/buffer.rs`).

Modelling conventions:
* `usize` byte offsets are `Nat`; `i32` values are `Int`, with two's-complement
  wrapping (`i32wrap`) applied exactly where the source performs `i32`
  arithmetic that can overflow (release-build semantics).
* `f32` pixel quantities are modelled as exact rationals `ℚ`; the claims
  settled here do not depend on rounding, and NaN/infinity inputs are outside
  the scope of the statements proved.
* The attribute value type (`AttrsOwned` in the source) is an opaque type
  parameter `α` with decidable equality: the span-map code never inspects
  attribute values except for equality (used by the range map to coalesce).
* `RangeMap` is the external `rangemap` crate; it is embedded by its
  documented semantics: a sorted list of non-overlapping, non-empty ranges;
  `insert` overwrites any overlapped parts of existing ranges and coalesces
  the inserted range with touching neighbours holding an equal value;
  `insert` and `remove` panic (modelled as `Option.none`) on an empty range.
-/

namespace CText

/-- One stored span of the range map: the half-open byte range
`[start, stop)` (Rust `start..end`; `end` is a Lean keyword) and its value. -/
structure Span (α : Type) where
  start : Nat
  stop : Nat
  val : α
  deriving DecidableEq

variable {α : Type}

/-- Survivor pieces of stored ranges strictly left of `s`
(`rangemap` truncates any part overlapping an inserted/removed range). -/
def cutLeft (s : Nat) (l : List (Span α)) : List (Span α) :=
  l.filterMap fun x => if x.start < s then some ⟨x.start, min x.stop s, x.val⟩ else none

/-- Survivor pieces of stored ranges strictly right of `e`. -/
def cutRight (e : Nat) (l : List (Span α)) : List (Span α) :=
  l.filterMap fun x => if e < x.stop then some ⟨max x.start e, x.stop, x.val⟩ else none

/-- Coalescing on the left: if the surviving left neighbour touches the
inserted range `[s, ...)` and stores an equal value, it is absorbed. -/
def absorbLeft [DecidableEq α] (s : Nat) (v : α) (left : List (Span α)) :
    Nat × List (Span α) :=
  match left.getLast? with
  | some x => if x.stop = s ∧ x.val = v then (x.start, left.dropLast) else (s, left)
  | none => (s, left)

/-- Coalescing on the right: if the surviving right neighbour touches the
inserted range `[..., e)` and stores an equal value, it is absorbed. -/
def absorbRight [DecidableEq α] (e : Nat) (v : α) (right : List (Span α)) :
    Nat × List (Span α) :=
  match right with
  | x :: rest => if x.start = e ∧ x.val = v then (x.stop, rest) else (e, right)
  | [] => (e, right)

/-- `RangeMap::insert` (external `rangemap` crate, by its documented
semantics): rejects an empty range (the crate panics, modelled as `none`),
truncates every overlapped part of existing ranges, and coalesces the
inserted range with a touching neighbour that stores an equal value. -/
def rmInsert [DecidableEq α] (s e : Nat) (v : α) (l : List (Span α)) :
    Option (List (Span α)) :=
  if e ≤ s then none else
  let ls := absorbLeft s v (cutLeft s l)
  let rs := absorbRight e v (cutRight e l)
  some (ls.2 ++ ⟨ls.1, rs.1, v⟩ :: rs.2)

/-- `RangeMap::remove`: deletes `[s, e)`, truncating overlapping stored
ranges; panics (`none`) on an empty range. -/
def rmRemove (s e : Nat) (l : List (Span α)) : Option (List (Span α)) :=
  if e ≤ s then none else some (cutLeft s l ++ cutRight e l)

/-- `RangeMap::get` / `get_key_value`: the stored span containing `i`. -/
def rmGet (i : Nat) (l : List (Span α)) : Option (Span α) :=
  l.find? fun x => decide (x.start ≤ i ∧ i < x.stop)

/-- The `RangeMap` representation invariant: every stored range is non-empty,
stored ranges are sorted and disjoint, and touching neighbours never hold
equal values (the crate would have coalesced them on insertion). -/
def SpanWF (l : List (Span α)) : Prop :=
  (∀ x ∈ l, x.start < x.stop) ∧
  l.Pairwise fun x y => x.stop ≤ y.start ∧ (x.stop = y.start → x.val ≠ y.val)

instance [DecidableEq α] (l : List (Span α)) : Decidable (SpanWF l) := by
  unfold SpanWF; infer_instance

/-- Non-overlap of the stored spans, as claimed by the spec. -/
def spansDisjoint (l : List (Span α)) : Prop :=
  l.Pairwise fun x y => x.stop ≤ y.start ∨ y.stop ≤ x.start

instance [DecidableEq α] (l : List (Span α)) : Decidable (spansDisjoint l) := by
  unfold spansDisjoint; infer_instance

/-- `AttrsList` (src/attrs.rs:266): a default attribute value plus the stored
spans; the `spans()` accessor of the source is the `spans` field. -/
structure AttrsList (α : Type) where
  defaults : α
  spans : List (Span α)
  deriving DecidableEq

/-- `AttrsList::new` (src/attrs.rs:273). -/
def AttrsList.new (d : α) : AttrsList α := ⟨d, []⟩

/-- `AttrsList::clear_spans` (src/attrs.rs:291). -/
def AttrsList.clear_spans (l : AttrsList α) : AttrsList α := { l with spans := [] }

/-- `AttrsList::add_span` (src/attrs.rs:296): a zero-width range is silently
ignored; otherwise the span is inserted, overwriting any previously stored
intersecting parts.  `none` models the `rangemap` panic on a reversed range. -/
def AttrsList.add_span [DecidableEq α] (l : AttrsList α) (s e : Nat) (v : α) :
    Option (AttrsList α) :=
  if s = e then some l
  else (rmInsert s e v l.spans).map fun sp => { l with spans := sp }

/-- `AttrsList::get_span` (src/attrs.rs:308): the stored value covering the
index, else the default. -/
def AttrsList.get_span (l : AttrsList α) (i : Nat) : α :=
  ((rmGet i l.spans).map Span.val).getD l.defaults

/-- One iteration of the removal loop of `AttrsList::split_off`
(src/attrs.rs:331-346): fetch the span by the recorded key's start, remove the
key's range, and reinsert the pieces; `none` models the `expect` panic and the
`rangemap` panics. -/
def splitStep [DecidableEq α] (index : Nat) (st : List (Span α) × List (Span α))
    (key : (Nat × Nat) × Bool) : Option (List (Span α) × List (Span α)) :=
  match rmGet key.1.1 st.1 with
  | none => none
  | some x =>
    match rmRemove key.1.1 key.1.2 st.1 with
    | none => none
    | some self1 =>
      if key.2 then
        match rmInsert 0 (x.stop - index) x.val st.2 with
        | none => none
        | some new1 =>
          match rmInsert x.start index x.val self1 with
          | none => none
          | some self2 => some (self2, new1)
      else
        match rmInsert (x.start - index) (x.stop - index) x.val st.2 with
        | none => none
        | some new1 => some (self1, new1)

/-- The removal loop of `AttrsList::split_off`, over the recorded keys. -/
def runRemoves [DecidableEq α] (index : Nat) :
    List ((Nat × Nat) × Bool) → List (Span α) × List (Span α) →
    Option (List (Span α) × List (Span α))
  | [], st => some st
  | key :: rest, st =>
    match splitStep index st key with
    | none => none
    | some st1 => runRemoves index rest st1

/-- The keys recorded by the first loop of `AttrsList::split_off`
(src/attrs.rs:321-329): the range of every span reaching past the index, with
a flag telling whether it straddles the index (`resize`). -/
def splitRemoves (index : Nat) (spans : List (Span α)) : List ((Nat × Nat) × Bool) :=
  spans.filterMap fun x =>
    if x.stop ≤ index then none
    else if index ≤ x.start then some ((x.start, x.stop), false)
    else some ((x.start, x.stop), true)

/-- `AttrsList::split_off` (src/attrs.rs:316): spans ending at or before the
index stay, spans starting at or after it move to the returned map rebased by
`-index`, and a straddling span is cut in two. -/
def AttrsList.split_off [DecidableEq α] (l : AttrsList α) (index : Nat) :
    Option (AttrsList α × AttrsList α) :=
  match runRemoves index (splitRemoves index l.spans) (l.spans, []) with
  | none => none
  | some st => some ({ l with spans := st.1 }, { defaults := l.defaults, spans := st.2 })

/-- Spans rebased by subtracting `k`, as `split_off` does for the new map. -/
def rebase (k : Nat) (l : List (Span α)) : List (Span α) :=
  l.map fun x => ⟨x.start - k, x.stop - k, x.val⟩

/-- A single `add_span`/`split_off` call, for stating the invariant claim. -/
inductive SpanOp (α : Type) where
  | add (s e : Nat) (v : α)
  | split (k : Nat) (keepNew : Bool)

/-- Apply one operation; after `split_off` the caller continues with either
the original (mutated) map or the returned one. -/
def applyOp [DecidableEq α] (l : AttrsList α) : SpanOp α → Option (AttrsList α)
  | .add s e v => l.add_span s e v
  | .split k keepNew =>
    match l.split_off k with
    | none => none
    | some p => some (if keepNew then p.2 else p.1)

/-- Apply a finite sequence of `add_span`/`split_off` calls. -/
def applyOps [DecidableEq α] : List (SpanOp α) → AttrsList α → Option (AttrsList α)
  | [], l => some l
  | op :: rest, l =>
    match applyOp l op with
    | none => none
    | some l1 => applyOps rest l1

/-! ### Text handling: UTF-8 byte lengths and line splitting -/

/-- UTF-8 encoded byte length of a character (Rust `char::len_utf8`). -/
def utf8Len (c : Char) : Nat :=
  if c.toNat < 128 then 1
  else if c.toNat < 2048 then 2
  else if c.toNat < 65536 then 3
  else 4

/-- UTF-8 byte length of a string (Rust `str::len`). -/
def utf8Length (l : List Char) : Nat := (l.map utf8Len).sum

/-- Byte slicing `text[s..e]` (Rust), on a `List Char` model of the string:
keeps the characters whose byte span lies inside `[s, e)`. -/
def utf8SliceGo (s e : Nat) : List Char → Nat → List Char
  | [], _ => []
  | c :: rest, pos =>
    let nxt := pos + utf8Len c
    if s ≤ pos ∧ nxt ≤ e then c :: utf8SliceGo s e rest nxt
    else utf8SliceGo s e rest nxt

def utf8Slice (s e : Nat) (text : List Char) : List Char := utf8SliceGo s e text 0

/-- Splitting on a separator, always yielding one more part than separators
(Rust `str::split('\n')`). -/
def splitOnNewline : List Char → List (List Char)
  | [] => [[]]
  | c :: rest =>
    let r := splitOnNewline rest
    if c = '\n' then [] :: r else (c :: r.headD []) :: r.tail

/-- Rust `str::split_terminator('\n')` (std, by its documented semantics):
like `split`, but a trailing separator does not produce a final empty part,
and the empty string yields no parts. -/
def split_terminator (text : List Char) : List (List Char) :=
  if text.getLast? = some '\n' then splitOnNewline text.dropLast
  else if text = [] then [] else splitOnNewline text

/-! ### The layout buffer model

`TextLayoutLine`, `ShapeLine`, `LayoutLine`, `LayoutGlyph` and `Wrap` are
defined in a source file of this repository that is not under `src/`; they are
modelled from the spec below.  The external shaping / wrapping capabilities
are a `FontSystem` parameter, and `f32` pixel values are exact rationals. -/

/-- Modelled from the spec: the wrap mode of the missing `Wrap` enum
("wrap mode" in the Layout Buffer state). -/
inductive Wrap where
  | NoneW
  | Glyph
  | Word
  deriving DecidableEq

/-- Modelled from the spec: the Shape Result of the missing `ShapeLine`
(“text converted into directional runs of attributed glyph clusters”); the
buffer code in scope reads only its paragraph-direction flag `rtl`
(src/buffer.rs:279), so the shaped runs are an opaque payload `σ`. -/
structure ShapeLine (σ : Type) where
  rtl : Bool
  data : σ
  deriving DecidableEq

/-- Modelled from the spec: a positioned glyph of the missing `LayoutGlyph`
(“byte range [start,end) in the owning Line Record's text, pixel x, pixel
width, writing-direction level”); `level_rtl` is `level.is_rtl()`. -/
structure LayoutGlyph where
  start : Nat
  stop : Nat
  x : ℚ
  w : ℚ
  level_rtl : Bool
  deriving DecidableEq

/-- Modelled from the spec: one visual line of the missing `LayoutLine`
(“ordered glyphs, pixel width, ascent, descent”), with the glyph- and
line-level vertical metrics the buffer code reads (src/buffer.rs:266-283). -/
structure LayoutLine where
  glyphs : List LayoutGlyph
  w : ℚ
  line_ascent : ℚ
  line_descent : ℚ
  glyph_ascent : ℚ
  glyph_descent : ℚ
  deriving DecidableEq

variable {σ : Type}

/-- Modelled from the spec: the Line Record of the missing `TextLayoutLine`
(“one paragraph's text, its attribute map, start byte offset in the document,
cached shape result (optional), cached wrapped layout (optional)”). -/
structure TextLayoutLine (α σ : Type) where
  text : List Char
  attrs : AttrsList α
  start_index : Nat
  shape_opt : Option (ShapeLine σ)
  layout_opt : Option (List LayoutLine)
  deriving DecidableEq

/-- Modelled from the spec: `TextLayoutLine::new` creates a Line Record with
empty shape/layout caches. -/
def TextLayoutLine.new (text : List Char) (attrs : AttrsList α) (start_index : Nat) :
    TextLayoutLine α σ :=
  ⟨text, attrs, start_index, none, none⟩

/-- Modelled from the spec: the external shaping capability
(`shape(line_text, attribute_span_map) -> ShapeResult`) and the wrapping
capability (ShapeResult + width + wrap mode → Layout Lines, deterministic
given the same inputs), passed explicitly instead of the global font system. -/
structure FontSystem (α σ : Type) where
  shape : List Char → AttrsList α → ShapeLine σ
  wrap_line : ShapeLine σ → ℚ → Wrap → List LayoutLine

/-- Modelled from the spec: `TextLayoutLine::shape` computes and caches the
shape result if the cache is empty. -/
def TextLayoutLine.shape (fs : FontSystem α σ) (l : TextLayoutLine α σ) :
    TextLayoutLine α σ × ShapeLine σ :=
  match l.shape_opt with
  | some sh => (l, sh)
  | none =>
    let sh := fs.shape l.text l.attrs
    ({ l with shape_opt := some sh }, sh)

/-- Modelled from the spec: `TextLayoutLine::reset_layout` clears only the
wrap/layout cache (reset to Shaped: keep shape, redo wrap). -/
def TextLayoutLine.reset_layout (l : TextLayoutLine α σ) : TextLayoutLine α σ :=
  { l with layout_opt := none }

/-- Modelled from the spec: `TextLayoutLine::layout` returns the cached
Layout Lines if present, else shapes (if needed) and wraps, caching the
result; invalidation is explicit, never implicit. -/
def TextLayoutLine.layout (fs : FontSystem α σ) (l : TextLayoutLine α σ)
    (width : ℚ) (wr : Wrap) : TextLayoutLine α σ × List LayoutLine :=
  match l.layout_opt with
  | some lay => (l, lay)
  | none =>
    let p := TextLayoutLine.shape fs l
    let lay := fs.wrap_line p.2 width wr
    ({ p.1 with layout_opt := some lay }, lay)

/-- Two's-complement wrap-around of Rust `i32` arithmetic (release build). -/
def i32wrap (x : Int) : Int := (x + 2147483648) % 4294967296 - 2147483648

/-- `i32::MAX`. -/
def i32Max : Int := 2147483647

/-- `f32::MAX`, the initial buffer width/height (src/buffer.rs:351-352). -/
def f32Max : ℚ := 340282346638528859811704183484516925440

/-- `TextLayout` (src/buffer.rs:331): the layout buffer state. -/
structure TextLayout (α σ : Type) where
  lines : List (TextLayoutLine α σ)
  width : ℚ
  height : ℚ
  scroll : Int
  redraw : Bool
  wrap : Wrap
  deriving DecidableEq

/-- `TextLayout::relayout` (src/buffer.rs:361): every line that has a shape
cache gets its layout cache cleared and recomputed at the current width/wrap. -/
def TextLayout.relayout (fs : FontSystem α σ) (tl : TextLayout α σ) : TextLayout α σ :=
  { tl with
    lines := tl.lines.map fun l =>
      if l.shape_opt.isSome then
        (TextLayoutLine.layout fs l.reset_layout tl.width tl.wrap).1
      else l,
    redraw := true }

/-- The loop of `TextLayout::shape_until` (src/buffer.rs:383-395): lay out
lines in order, accumulating the `i32` count of produced layout lines, until
the count reaches the bound; returns the updated lines, the count, and the
number of lines that had to be shaped. -/
def shapeUntilGo (fs : FontSystem α σ) (width : ℚ) (wr : Wrap) (bound : Int) :
    List (TextLayoutLine α σ) → Int → Nat → List (TextLayoutLine α σ) × Int × Nat
  | [], total, reshaped => ([], total, reshaped)
  | line :: rest, total, reshaped =>
    if bound ≤ total then (line :: rest, total, reshaped)
    else
      let reshaped1 := if line.shape_opt.isNone then reshaped + 1 else reshaped
      let p := TextLayoutLine.layout fs line width wr
      let total1 := i32wrap (total + i32wrap p.2.length)
      let q := shapeUntilGo fs width wr bound rest total1 reshaped1
      (p.1 :: q.1, q.2.1, q.2.2)

/-- `TextLayout::shape_until` (src/buffer.rs:379). -/
def TextLayout.shape_until (fs : FontSystem α σ) (tl : TextLayout α σ) (bound : Int) :
    TextLayout α σ × Int :=
  let q := shapeUntilGo fs tl.width tl.wrap bound tl.lines 0 0
  ({ tl with lines := q.1, redraw := if 0 < q.2.2 then true else tl.redraw }, q.2.1)

/-- `TextLayout::shape_until_scroll` (src/buffer.rs:448): shape up to
`scroll + i32::MAX` layout lines, then clamp the scroll to
`max(0, min(total - (i32::MAX - 1), scroll))`, with `i32` wrap-around. -/
def TextLayout.shape_until_scroll (fs : FontSystem α σ) (tl : TextLayout α σ) :
    TextLayout α σ :=
  let scroll_end := i32wrap (tl.scroll + i32Max)
  let p := TextLayout.shape_until fs tl scroll_end
  { p.1 with scroll := max 0 (min (i32wrap (p.2 - (i32Max - 1))) p.1.scroll) }

/-- `TextLayout::set_wrap` (src/buffer.rs:505). -/
def TextLayout.set_wrap (fs : FontSystem α σ) (tl : TextLayout α σ) (w : Wrap) :
    TextLayout α σ :=
  if w ≠ tl.wrap then
    TextLayout.shape_until_scroll fs (TextLayout.relayout fs { tl with wrap := w })
  else tl

/-- `TextLayout::set_size` (src/buffer.rs:527): clamps both dimensions to at
least 0; on a change, re-lays-out and re-runs `shape_until_scroll`. -/
def TextLayout.set_size (fs : FontSystem α σ) (tl : TextLayout α σ) (w h : ℚ) :
    TextLayout α σ :=
  let cw := max w 0
  let ch := max h 0
  if cw ≠ tl.width ∨ ch ≠ tl.height then
    TextLayout.shape_until_scroll fs
      (TextLayout.relayout fs { tl with width := cw, height := ch })
  else tl

/-- `TextLayout::set_scroll` (src/buffer.rs:545): stores the value as given. -/
def TextLayout.set_scroll (tl : TextLayout α σ) (s : Int) : TextLayout α σ :=
  if s ≠ tl.scroll then { tl with scroll := s, redraw := true } else tl

/-- The carriage-return strip of `TextLayout::set_text` (src/buffer.rs:559):
a non-empty segment whose last byte is `b'\r'` (equivalently, whose last
character is `'\r'`) loses that byte; the flag records whether it did. -/
def stripCR (seg : List Char) : List Char × Bool :=
  if 0 < utf8Length seg ∧ seg.getLast? = some '\r' then (seg.dropLast, true)
  else (seg, false)

/-- A split segment with one trailing carriage return stripped: the text a
Line Record stores, for stating the round-trip claim. -/
def stripSeg (seg : List Char) : List Char :=
  if seg.getLast? = some '\r' then seg.dropLast else seg

/-- The loop of `TextLayout::set_text` (src/buffer.rs:557-573) over the
segments produced by `split_terminator('\n')`: strips one trailing `'\r'`
per segment, carves the attribute map with `split_off`, and threads the
running byte offset. -/
def setTextGo [DecidableEq α] : List (List Char) → AttrsList α → Nat →
    Option (List (TextLayoutLine α σ) × AttrsList α)
  | [], attrs, _ => some ([], attrs)
  | seg :: rest, attrs, start_index =>
    let l := utf8Length seg
    match attrs.split_off
        (utf8Length (stripCR seg).1 + 1 + (if (stripCR seg).2 then 1 else 0)) with
    | none => none
    | some p =>
      match (setTextGo rest p.2
          (start_index + l + 1 + (if (stripCR seg).2 then 1 else 0)) :
          Option (List (TextLayoutLine α σ) × AttrsList α)) with
      | none => none
      | some q => some (TextLayoutLine.new (stripCR seg).1 p.1 start_index :: q.1, q.2)

/-- `TextLayout::set_text` (src/buffer.rs:553): rebuild the Line Records,
always leaving at least one, reset the scroll to 0, and shape until scroll. -/
def TextLayout.set_text [DecidableEq α] (fs : FontSystem α σ) (tl : TextLayout α σ)
    (text : List Char) (attrs : AttrsList α) : Option (TextLayout α σ) :=
  match (setTextGo (split_terminator text) attrs 0 :
      Option (List (TextLayoutLine α σ) × AttrsList α)) with
  | none => none
  | some q =>
    let lines1 := if q.1.isEmpty then [TextLayoutLine.new [] q.2 0] else q.1
    some (TextLayout.shape_until_scroll fs { tl with lines := lines1, scroll := 0 })

/-- `TextLayout::new` (src/buffer.rs:348): an `f32::MAX`-sized buffer holding
the empty text (the default attribute value stands for `Attrs::new()`). -/
def TextLayout.new [DecidableEq α] (fs : FontSystem α σ) (d : α) :
    Option (TextLayout α σ) :=
  TextLayout.set_text fs
    { lines := [], width := f32Max, height := f32Max, scroll := 0,
      redraw := false, wrap := Wrap.Word } [] (AttrsList.new d)

/-- `total_layout_lines` as summed by `LayoutRunIter::new` (src/buffer.rs:215):
the number of cached layout lines over all Line Records. -/
def totalLayoutLines (tl : TextLayout α σ) : Nat :=
  (tl.lines.map fun l => (l.layout_opt.map List.length).getD 0).sum

/-! ### Cursor, visible runs, and hit testing -/

/-- `Affinity` (src/buffer.rs:71): whether a cursor at a run boundary binds to
the run before or after it. -/
inductive Affinity where
  | Before
  | After
  deriving DecidableEq

/-- `impl Default for Affinity` (src/buffer.rs:102): `Affinity::Before`. -/
instance : Inhabited Affinity := ⟨Affinity.Before⟩

/-- `Cursor` (src/buffer.rs:43). -/
structure Cursor where
  line : Nat
  index : Nat
  affinity : Affinity
  deriving DecidableEq

/-- `Cursor::new_with_affinity` (src/buffer.rs:60). -/
def Cursor.new_with_affinity (line index : Nat) (affinity : Affinity) : Cursor :=
  ⟨line, index, affinity⟩

/-- `Cursor::new` (src/buffer.rs:55): affinity `Before`. -/
def Cursor.new (line index : Nat) : Cursor :=
  Cursor.new_with_affinity line index Affinity.Before

/-- `LayoutRun` (src/buffer.rs:126): one visible layout line with its
absolute vertical position. -/
structure LayoutRun where
  line_i : Nat
  text : List Char
  rtl : Bool
  glyphs : List LayoutGlyph
  line_y : ℚ
  line_w : ℚ
  line_height : ℚ
  glyph_ascent : ℚ
  glyph_descent : ℚ
  deriving DecidableEq

/-- `LayoutRun::cursor_from_glyph_left` (src/buffer.rs:186). -/
def LayoutRun.cursor_from_glyph_left (run : LayoutRun) (g : LayoutGlyph) : Cursor :=
  if run.rtl then Cursor.new_with_affinity run.line_i g.stop Affinity.Before
  else Cursor.new_with_affinity run.line_i g.start Affinity.After

/-- `LayoutRun::cursor_from_glyph_right` (src/buffer.rs:194). -/
def LayoutRun.cursor_from_glyph_right (run : LayoutRun) (g : LayoutGlyph) : Cursor :=
  if run.rtl then Cursor.new_with_affinity run.line_i g.start Affinity.After
  else Cursor.new_with_affinity run.line_i g.stop Affinity.Before

/-- The inner loop of `LayoutRunIter::next` (src/buffer.rs:257-287) over one
line's layout lines: skip the first `scroll` layout lines (counted across the
whole buffer), accumulate the running `line_y`, and stop everything once it
exceeds the viewport height.  Returns the produced runs, the updated
layout-line counter and `line_y`, and whether iteration stopped. -/
def lineRuns (scroll : Int) (height : ℚ) (line_i : Nat) (text : List Char)
    (rtl : Bool) : List LayoutLine → Int → ℚ → List LayoutRun × Int × ℚ × Bool
  | [], total, ly => ([], total, ly, false)
  | ll :: rest, total, ly =>
    let scrolled := total < scroll
    let total1 := total + 1
    if scrolled then lineRuns scroll height line_i text rtl rest total1 ly
    else
      let h := ll.line_ascent + ll.line_descent
      let ly1 := ly + h
      if height < ly1 then ([], total1, ly1, true)
      else
        let off := (h - (ll.glyph_ascent + ll.glyph_descent)) / 2
        let run : LayoutRun :=
          ⟨line_i, text, rtl, ll.glyphs, ly1 - off - ll.glyph_descent, ll.w, h,
            ll.glyph_ascent, ll.glyph_descent⟩
        let q := lineRuns scroll height line_i text rtl rest total1 ly1
        (run :: q.1, q.2)

/-- The outer loop of `LayoutRunIter::next` (src/buffer.rs:254-292): walk the
Line Records in order; a line missing either cache ends the whole iteration. -/
def runsGo (scroll : Int) (height : ℚ) :
    List (TextLayoutLine α σ) → Nat → Int → ℚ → List LayoutRun
  | [], _, _, _ => []
  | line :: rest, i, total, ly =>
    match line.shape_opt, line.layout_opt with
    | some sh, some lay =>
      let q := lineRuns scroll height i line.text sh.rtl lay total ly
      if q.2.2.2 then q.1 else q.1 ++ runsGo scroll height rest (i + 1) q.2.1 q.2.2.1
    | _, _ => []

/-- `TextLayout::layout_runs` (src/buffer.rs:596): the visible runs, in
order, as the list of items yielded by `LayoutRunIter`. -/
def TextLayout.layout_runs (tl : TextLayout α σ) : List LayoutRun :=
  runsGo tl.scroll tl.height tl.lines 0 0 0

/-- The external `unicode_segmentation` capability `grapheme_indices(true)`:
the extended grapheme clusters of a string with their byte offsets, passed as
a parameter to hit testing. -/
def Seg : Type := List Char → List (Nat × List Char)

/-- Per-character segmentation with UTF-8 byte offsets: the exact value of
`grapheme_indices(true)` on text without combining sequences. -/
def charSegGo : List Char → Nat → List (Nat × List Char)
  | [], _ => []
  | c :: rest, pos => (pos, [c]) :: charSegGo rest (pos + utf8Len c)

def charSeg : Seg := fun cl => charSegGo cl 0

/-- The grapheme-cluster subdivision loop inside `TextLayout::hit`
(src/buffer.rs:837-850): find the cluster containing `x` at evenly spaced
positions; clicking its right half (in reading direction) places the cursor
past the cluster with affinity `Before`. -/
def egcScan (x : ℚ) (lvlRtl : Bool) (egcW : ℚ) (aff0 : Affinity) :
    List (Nat × List Char) → ℚ → Option (Nat × Affinity)
  | [], _ => none
  | (ei, egc) :: rest, egcX =>
    if egcX ≤ x ∧ x ≤ egcX + egcW then
      if (decide (egcX + egcW / 2 ≤ x)) ≠ lvlRtl then
        some (ei + utf8Length egc, Affinity.Before)
      else some (ei, aff0)
    else egcScan x lvlRtl egcW aff0 rest (egcX + egcW)

/-- The glyph scan of the matched run inside `TextLayout::hit`
(src/buffer.rs:822-860): state is `(glyph index, char offset, affinity)`,
initially `(glyphs.len(), 0, After)`. -/
def scanGlyphs (seg : Seg) (x : ℚ) (text : List Char) (rtl : Bool) :
    List LayoutGlyph → Nat → Bool → Nat × Nat × Affinity → Nat × Nat × Affinity
  | [], _, _, st => st
  | g :: rest, i, firstG, st =>
    let st1 := if firstG ∧ ((rtl ∧ g.x < x) ∨ (¬rtl ∧ x < 0)) then (0, 0, st.2.2) else st
    if g.x ≤ x ∧ x ≤ g.x + g.w then
      let cluster := utf8Slice g.start g.stop text
      let egcW := g.w / ((seg cluster).length : ℚ)
      match egcScan x g.level_rtl egcW st1.2.2 (seg cluster) g.x with
      | some r => (i, r.1, r.2)
      | none =>
        if (decide (g.x + g.w / 2 ≤ x)) ≠ g.level_rtl then
          (i, utf8Length cluster, Affinity.Before)
        else (i, st1.2.1, st1.2.2)
    else scanGlyphs seg x text rtl rest (i + 1) false st1

/-- The matched-run branch of `TextLayout::hit` (src/buffer.rs:815-879): the
cursor built from the glyph scan, or the end of the line when no glyph
contains `x`. -/
def hitRun (seg : Seg) (x : ℚ) (run : LayoutRun) : Cursor :=
  let st := scanGlyphs seg x run.text run.rtl run.glyphs 0 true
    (run.glyphs.length, 0, Affinity.After)
  match run.glyphs[st.1]? with
  | some g => ⟨run.line_i, g.start + st.2.1, st.2.2⟩
  | none =>
    match run.glyphs.getLast? with
    | some g => ⟨run.line_i, g.stop, Affinity.Before⟩
    | none => Cursor.new run.line_i 0

/-- The run loop of `TextLayout::hit` (src/buffer.rs:806-889): above the
first run's band sets a document-start cursor (and clears the first-run
flag), a matched band answers immediately, and below the last run's baseline
sets a cursor after its last glyph. -/
def hitGo (seg : Seg) (x y : ℚ) :
    List LayoutRun → Bool → Option Cursor → Option Cursor
  | [], _, acc => acc
  | run :: rest, firstRun, acc =>
    if firstRun ∧ y < run.line_y - run.line_height then
      hitGo seg x y rest false (some (Cursor.new run.line_i 0))
    else if run.line_y - run.line_height ≤ y ∧ y < run.line_y then
      some (hitRun seg x run)
    else if rest = [] ∧ run.line_y < y then
      hitGo seg x y rest firstRun (some (match run.glyphs.getLast? with
        | some g => LayoutRun.cursor_from_glyph_right run g
        | none => Cursor.new run.line_i 0))
    else hitGo seg x y rest firstRun acc

/-- `TextLayout::hit` (src/buffer.rs:800). -/
def TextLayout.hit (seg : Seg) (tl : TextLayout α σ) (x y : ℚ) : Option Cursor :=
  hitGo seg x y (TextLayout.layout_runs tl) true none

/-- The total number of layout lines `shape_until` can produce for these
lines at this width and wrap mode (cached or freshly computed per line). -/
def sumLayoutLen (fs : FontSystem α σ) (w : ℚ) (wr : Wrap)
    (ls : List (TextLayoutLine α σ)) : Nat :=
  (ls.map fun l => (TextLayoutLine.layout fs l w wr).2.length).sum

/-- A fixed shaping/wrapping oracle for closed instances: every line shapes
LTR and wraps to one layout line holding one 10-pixel-wide one-byte glyph. -/
def fsT : FontSystem Nat Unit :=
  ⟨fun _ _ => ⟨false, ()⟩, fun _ _ _ => [⟨[⟨0, 1, 0, 10, false⟩], 10, 8, 2, 8, 2⟩]⟩

/-- The freshly constructed buffer state of `TextLayout::new`, before its
`set_text` call (src/buffer.rs:349-356). -/
def tlBase : TextLayout Nat Unit :=
  { lines := [], width := f32Max, height := f32Max, scroll := 0,
    redraw := false, wrap := Wrap.Word }

/-- A Line Record with both caches filled: the one-byte text `"a"`, shaped
LTR, laid out as one 10-pixel-wide glyph with ascent 8 and descent 2. -/
def lineH : TextLayoutLine Nat Unit :=
  ⟨['a'], AttrsList.new 0, 0, some ⟨false, ()⟩,
    some [⟨[⟨0, 1, 0, 10, false⟩], 10, 8, 2, 8, 2⟩]⟩

/-- A one-line, one-glyph LTR buffer with both caches filled, for closed
hit-testing instances. -/
def tlH : TextLayout Nat Unit :=
  { lines := [lineH],
    width := 100, height := 100, scroll := 0, redraw := false, wrap := Wrap.Word }

/-- A buffer whose only line has neither cache: `layout_runs` is empty. -/
def tlU : TextLayout Nat Unit :=
  { lines := [TextLayoutLine.new ['a'] (AttrsList.new 0) 0],
    width := 100, height := 100, scroll := 0, redraw := false, wrap := Wrap.Word }

/-- The single visible run of the buffer `tlH`. -/
def runH : LayoutRun :=
  ⟨0, ['a'], false, [⟨0, 1, 0, 10, false⟩], 8, 10, 10, 8, 2⟩

/-! ### List helper lemmas -/

theorem filterMap_eq_self {β : Type} {f : β → Option β} :
    ∀ {l : List β}, (∀ x ∈ l, f x = some x) → l.filterMap f = l
  | [], _ => rfl
  | a :: l, h => by
    have ha := h a (List.mem_cons_self a l)
    simp only [List.filterMap_cons, ha]
    exact congrArg (a :: ·) (filterMap_eq_self fun x hx => h x (List.mem_cons_of_mem a hx))

theorem filterMap_eq_nil {β γ : Type} {f : β → Option γ} :
    ∀ {l : List β}, (∀ x ∈ l, f x = none) → l.filterMap f = []
  | [], _ => rfl
  | a :: l, h => by
    have ha := h a (List.mem_cons_self a l)
    simp only [List.filterMap_cons, ha]
    exact filterMap_eq_nil fun x hx => h x (List.mem_cons_of_mem a hx)

theorem filterMap_eq_map {β γ : Type} {f : β → Option γ} {g : β → γ} :
    ∀ {l : List β}, (∀ x ∈ l, f x = some (g x)) → l.filterMap f = l.map g
  | [], _ => rfl
  | a :: l, h => by
    have ha := h a (List.mem_cons_self a l)
    simp only [List.filterMap_cons, ha, List.map_cons]
    exact congrArg (g a :: ·) (filterMap_eq_map fun x hx => h x (List.mem_cons_of_mem a hx))

theorem find?_append_cons {β : Type} {p : β → Bool} {m : β} {M : List β} :
    ∀ {F : List β}, (∀ x ∈ F, p x = false) → p m = true →
      (F ++ m :: M).find? p = some m
  | [], _, h2 => by simp [List.find?_cons, h2]
  | a :: F, h1, h2 => by
    have ha := h1 a (List.mem_cons_self a F)
    simp only [List.cons_append, List.find?_cons, ha, cond_false]
    exact find?_append_cons (fun x hx => h1 x (List.mem_cons_of_mem a hx)) h2

theorem pairwise_filterMap_trans {R S : Span α → Span α → Prop}
    {f : Span α → Option (Span α)}
    (hf : ∀ a b x y, R a b → f a = some x → f b = some y → S x y) :
    ∀ {l : List (Span α)}, l.Pairwise R → (l.filterMap f).Pairwise S
  | [], _ => by simp
  | a :: l, h => by
    rcases List.pairwise_cons.mp h with ⟨ha, hl⟩
    cases hfa : f a with
    | none => simpa [List.filterMap_cons, hfa] using pairwise_filterMap_trans hf hl
    | some x =>
      simp only [List.filterMap_cons, hfa]
      refine List.pairwise_cons.mpr ⟨?_, pairwise_filterMap_trans hf hl⟩
      intro y hy
      rcases List.mem_filterMap.mp hy with ⟨b, hb, hfb⟩
      exact hf a b x y (ha b hb) hfa hfb

/-! ### Well-formedness facts for the range-map model -/

theorem cutLeft_stop_le {k : Nat} {l : List (Span α)} :
    ∀ x ∈ cutLeft k l, x.stop ≤ k := by
  intro x hx
  rcases List.mem_filterMap.mp hx with ⟨a, _, hfa⟩
  by_cases h : a.start < k
  · rw [if_pos h] at hfa
    cases hfa
    exact min_le_right _ _
  · rw [if_neg h] at hfa
    cases hfa

theorem cutLeft_start_lt {k : Nat} {l : List (Span α)} :
    ∀ x ∈ cutLeft k l, x.start < k := by
  intro x hx
  rcases List.mem_filterMap.mp hx with ⟨a, _, hfa⟩
  by_cases h : a.start < k
  · rw [if_pos h] at hfa
    cases hfa
    exact h
  · rw [if_neg h] at hfa
    cases hfa

theorem cutRight_start_ge {e : Nat} {l : List (Span α)} :
    ∀ x ∈ cutRight e l, e ≤ x.start := by
  intro x hx
  rcases List.mem_filterMap.mp hx with ⟨a, _, hfa⟩
  by_cases h : e < a.stop
  · rw [if_pos h] at hfa
    cases hfa
    exact le_max_right _ _
  · rw [if_neg h] at hfa
    cases hfa

theorem cutLeft_wf {k : Nat} {l : List (Span α)} (h : SpanWF l) :
    SpanWF (cutLeft k l) := by
  constructor
  · intro x hx
    rcases List.mem_filterMap.mp hx with ⟨a, ha, hfa⟩
    by_cases hlt : a.start < k
    · rw [if_pos hlt] at hfa
      cases hfa
      exact lt_min (h.1 a ha) hlt
    · rw [if_neg hlt] at hfa
      cases hfa
  · refine pairwise_filterMap_trans ?_ h.2
    intro a b x y hab hfa hfb
    by_cases h1 : a.start < k
    · by_cases h2 : b.start < k
      · rw [if_pos h1] at hfa
        rw [if_pos h2] at hfb
        cases hfa
        cases hfb
        refine ⟨le_trans (min_le_left _ _) hab.1, ?_⟩
        intro htouch
        rcases le_or_lt a.stop k with hk | hk
        · rw [min_eq_left hk] at htouch
          exact hab.2 htouch
        · rw [min_eq_right (le_of_lt hk)] at htouch
          omega
      · rw [if_neg h2] at hfb
        cases hfb
    · rw [if_neg h1] at hfa
      cases hfa

theorem cutRight_wf {e : Nat} {l : List (Span α)} (h : SpanWF l) :
    SpanWF (cutRight e l) := by
  constructor
  · intro x hx
    rcases List.mem_filterMap.mp hx with ⟨a, ha, hfa⟩
    by_cases hlt : e < a.stop
    · rw [if_pos hlt] at hfa
      cases hfa
      exact max_lt (h.1 a ha) hlt
    · rw [if_neg hlt] at hfa
      cases hfa
  · refine pairwise_filterMap_trans ?_ h.2
    intro a b x y hab hfa hfb
    by_cases h1 : e < a.stop
    · by_cases h2 : e < b.stop
      · rw [if_pos h1] at hfa
        rw [if_pos h2] at hfb
        cases hfa
        cases hfb
        refine ⟨le_trans hab.1 (le_max_left _ _), ?_⟩
        intro htouch
        rcases le_or_lt e b.start with hk | hk
        · rw [max_eq_left hk] at htouch
          exact hab.2 htouch
        · rw [max_eq_right (le_of_lt hk)] at htouch
          omega
      · rw [if_neg h2] at hfb
        cases hfb
    · rw [if_neg h1] at hfa
      cases hfa

theorem rebase_wf {k : Nat} {l : List (Span α)} (h : SpanWF l)
    (hk : ∀ x ∈ l, k ≤ x.start) : SpanWF (rebase k l) := by
  constructor
  · intro x hx
    rcases List.mem_map.mp hx with ⟨a, ha, rfl⟩
    have h1 := h.1 a ha
    have h2 := hk a ha
    simp only
    omega
  · rw [rebase, List.pairwise_map]
    refine (h.2.imp_of_mem ?_)
    intro a b ha hb hab
    have ha1 := h.1 a ha
    have hb1 := h.1 b hb
    have ha2 := hk a ha
    have hb2 := hk b hb
    show a.stop - k ≤ b.start - k ∧ (a.stop - k = b.start - k → a.val ≠ b.val)
    refine ⟨by omega, ?_⟩
    intro htouch
    have : a.stop = b.start := by omega
    exact hab.2 this

theorem wf_glue {left1 right1 : List (Span α)} {mid : Span α}
    (hl : SpanWF left1) (hr : SpanWF right1) (hm : mid.start < mid.stop)
    (hlm : ∀ x ∈ left1, x.stop ≤ mid.start ∧ (x.stop = mid.start → x.val ≠ mid.val))
    (hmr : ∀ y ∈ right1, mid.stop ≤ y.start ∧ (mid.stop = y.start → mid.val ≠ y.val))
    (hlr : ∀ x ∈ left1, ∀ y ∈ right1,
      x.stop ≤ y.start ∧ (x.stop = y.start → x.val ≠ y.val)) :
    SpanWF (left1 ++ mid :: right1) := by
  constructor
  · intro x hx
    rcases List.mem_append.mp hx with hx | hx
    · exact hl.1 x hx
    · rcases List.mem_cons.mp hx with rfl | hx
      · exact hm
      · exact hr.1 x hx
  · rw [List.pairwise_append]
    refine ⟨hl.2, List.pairwise_cons.mpr ⟨hmr, hr.2⟩, ?_⟩
    intro x hx y hy
    rcases List.mem_cons.mp hy with rfl | hy
    · exact hlm x hx
    · exact hlr x hx y hy

theorem wf_dropLast_getLast {l : List (Span α)} {z : Span α} (h : SpanWF l)
    (hz : l.getLast? = some z) :
    ∀ x ∈ l.dropLast, x.stop ≤ z.start ∧ (x.stop = z.start → x.val ≠ z.val) := by
  have hne : l ≠ [] := by
    intro hnil
    rw [hnil] at hz
    cases hz
  have hzl : z = l.getLast hne := by
    have := List.getLast?_eq_getLast l hne
    rw [this] at hz
    exact (Option.some_inj.mp hz).symm
  have hdecomp : l.dropLast ++ [l.getLast hne] = l := List.dropLast_append_getLast hne
  intro x hx
  have hp := h.2
  rw [← hdecomp, List.pairwise_append] at hp
  have := hp.2.2 x hx (l.getLast hne) (List.mem_singleton_self _)
  rw [← hzl] at this
  exact this

theorem absorbLeft_glue [DecidableEq α] {s : Nat} {v : α} {left : List (Span α)}
    (hwf : SpanWF left) (hle : ∀ x ∈ left, x.stop ≤ s) :
    SpanWF (absorbLeft s v left).2 ∧ (absorbLeft s v left).1 ≤ s ∧
    (∀ x ∈ (absorbLeft s v left).2,
      x.stop ≤ (absorbLeft s v left).1 ∧
      (x.stop = (absorbLeft s v left).1 → x.val ≠ v)) ∧
    (∀ x ∈ (absorbLeft s v left).2, x ∈ left) := by
  unfold absorbLeft
  cases hz : left.getLast? with
  | none =>
    have : left = [] := List.getLast?_eq_none_iff.mp hz
    subst this
    refine ⟨⟨by simp, by simp⟩, le_refl s, by simp, by simp⟩
  | some z =>
    have hne : left ≠ [] := by
      intro hnil
      rw [hnil] at hz
      cases hz
    have hzl : z = left.getLast hne := by
      have := List.getLast?_eq_getLast left hne
      rw [this] at hz
      exact (Option.some_inj.mp hz).symm
    have hzmem : z ∈ left := by
      rw [hzl]
      exact List.getLast_mem hne
    dsimp only
    by_cases hcond : z.stop = s ∧ z.val = v
    · rw [if_pos hcond]
      have hsub : left.dropLast.Sublist left := List.dropLast_sublist left
      refine ⟨⟨fun x hx => hwf.1 x (hsub.mem hx), hwf.2.sublist hsub⟩, ?_, ?_, ?_⟩
      · exact le_of_lt (lt_of_lt_of_le (hwf.1 z hzmem) (by rw [hcond.1]))
      · intro x hx
        have := wf_dropLast_getLast hwf hz x hx
        exact ⟨this.1, fun ht => by
          have := this.2 ht
          rw [hcond.2] at this
          exact this⟩
      · intro x hx
        exact hsub.mem hx
    · rw [if_neg hcond]
      refine ⟨hwf, le_refl s, ?_, fun x hx => hx⟩
      intro x hx
      refine ⟨hle x hx, ?_⟩
      intro ht hv
      have hdecomp : left.dropLast ++ [left.getLast hne] = left :=
        List.dropLast_append_getLast hne
      rw [← hdecomp] at hx
      rcases List.mem_append.mp hx with hx1 | hx1
      · have h1 := wf_dropLast_getLast hwf hz x hx1
        have h2 := hwf.1 z hzmem
        have h3 := hle z hzmem
        omega
      · rw [List.mem_singleton] at hx1
        rw [← hzl] at hx1
        subst hx1
        exact hcond ⟨ht, hv⟩

theorem absorbRight_glue [DecidableEq α] {e : Nat} {v : α} {right : List (Span α)}
    (hwf : SpanWF right) (hge : ∀ y ∈ right, e ≤ y.start) :
    SpanWF (absorbRight e v right).2 ∧ e ≤ (absorbRight e v right).1 ∧
    (∀ y ∈ (absorbRight e v right).2,
      (absorbRight e v right).1 ≤ y.start ∧
      ((absorbRight e v right).1 = y.start → v ≠ y.val)) ∧
    (∀ y ∈ (absorbRight e v right).2, y ∈ right) := by
  unfold absorbRight
  cases right with
  | nil => exact ⟨⟨by simp, by simp⟩, le_refl e, by simp, by simp⟩
  | cons y rest =>
    rcases List.pairwise_cons.mp hwf.2 with ⟨hy, hrest⟩
    dsimp only
    by_cases hcond : y.start = e ∧ y.val = v
    · rw [if_pos hcond]
      refine ⟨⟨fun x hx => hwf.1 x (List.mem_cons_of_mem y hx), hrest⟩, ?_, ?_, ?_⟩
      · exact le_of_lt (lt_of_le_of_lt (by rw [hcond.1])
          (hwf.1 y (List.mem_cons_self y rest)))
      · intro w hw
        have := hy w hw
        exact ⟨this.1, fun ht hv => this.2 ht (by rw [hcond.2, hv])⟩
      · intro w hw
        exact List.mem_cons_of_mem y hw
    · rw [if_neg hcond]
      refine ⟨hwf, le_refl e, ?_, fun w hw => hw⟩
      intro w hw
      refine ⟨hge w hw, ?_⟩
      intro ht hv
      rcases List.mem_cons.mp hw with rfl | hw1
      · exact hcond ⟨ht.symm, hv.symm⟩
      · have h1 := hy w hw1
        have h2 := hwf.1 y (List.mem_cons_self y rest)
        have h3 := hge y (List.mem_cons_self y rest)
        omega

/-! ### Computation lemmas for `split_off` -/

theorem cutLeft_append {s : Nat} {l1 l2 : List (Span α)} :
    cutLeft s (l1 ++ l2) = cutLeft s l1 ++ cutLeft s l2 := by
  simp [cutLeft, List.filterMap_append]

theorem cutRight_append {e : Nat} {l1 l2 : List (Span α)} :
    cutRight e (l1 ++ l2) = cutRight e l1 ++ cutRight e l2 := by
  simp [cutRight, List.filterMap_append]

theorem cutLeft_all {s : Nat} {l : List (Span α)}
    (h : ∀ x ∈ l, x.start < s ∧ x.stop ≤ s) : cutLeft s l = l := by
  refine filterMap_eq_self ?_
  intro x hx
  rw [if_pos (h x hx).1, min_eq_left (h x hx).2]

theorem cutLeft_nil {s : Nat} {l : List (Span α)}
    (h : ∀ x ∈ l, ¬ x.start < s) : cutLeft s l = [] := by
  refine filterMap_eq_nil ?_
  intro x hx
  rw [if_neg (h x hx)]

theorem cutRight_all {e : Nat} {l : List (Span α)}
    (h : ∀ x ∈ l, e < x.stop ∧ e ≤ x.start) : cutRight e l = l := by
  refine filterMap_eq_self ?_
  intro x hx
  rw [if_pos (h x hx).1, max_eq_left (h x hx).2]

theorem cutRight_nil {e : Nat} {l : List (Span α)}
    (h : ∀ x ∈ l, ¬ e < x.stop) : cutRight e l = [] := by
  refine filterMap_eq_nil ?_
  intro x hx
  rw [if_neg (h x hx)]

/-- Inserting a fresh span strictly to the right of everything stored simply
appends it (no overlap, and no coalescing by the touching-value condition). -/
theorem rmInsert_append_end [DecidableEq α] {s e : Nat} {v : α}
    {N : List (Span α)} (hse : s < e)
    (hN : ∀ x ∈ N, x.start < x.stop ∧ x.stop ≤ s ∧ (x.stop = s → x.val ≠ v)) :
    rmInsert s e v N = some (N ++ [⟨s, e, v⟩]) := by
  rw [rmInsert, if_neg (by omega)]
  have hcl : cutLeft s N = N := cutLeft_all fun x hx => by
    have := hN x hx
    omega
  have hcr : cutRight e N = [] := cutRight_nil fun x hx => by
    have := hN x hx
    omega
  rw [hcl, hcr]
  have habs : absorbLeft s v N = (s, N) := by
    unfold absorbLeft
    cases hz : N.getLast? with
    | none => rfl
    | some z =>
      dsimp only
      have hne : N ≠ [] := by
        intro hnil
        rw [hnil] at hz
        cases hz
      have hzl : z = N.getLast hne := by
        have := List.getLast?_eq_getLast N hne
        rw [this] at hz
        exact (Option.some_inj.mp hz).symm
      have hzmem : z ∈ N := by
        rw [hzl]
        exact List.getLast_mem hne
      rw [if_neg]
      intro hcond
      exact (hN z hzmem).2.2 hcond.1 hcond.2
  rw [habs]
  rfl

/-- Inserting the left piece of a straddling span back between the untouched
left part and the movers. -/
theorem rmInsert_mid [DecidableEq α] {a k : Nat} {v : α}
    {F R2 : List (Span α)} (hak : a < k)
    (hF : ∀ x ∈ F, x.start < x.stop ∧ x.stop ≤ a ∧ (x.stop = a → x.val ≠ v))
    (hR : ∀ y ∈ R2, k < y.start ∧ y.start < y.stop) :
    rmInsert a k v (F ++ R2) = some (F ++ ⟨a, k, v⟩ :: R2) := by
  rw [rmInsert, if_neg (by omega)]
  have hcl : cutLeft a (F ++ R2) = F := by
    rw [cutLeft_append, cutLeft_all (fun x hx => by
      have := hF x hx
      omega), cutLeft_nil (fun y hy => by
      have := hR y hy
      omega), List.append_nil]
  have hcr : cutRight k (F ++ R2) = R2 := by
    rw [cutRight_append, cutRight_nil (fun x hx => by
      have := hF x hx
      omega), cutRight_all (fun y hy => by
      have := hR y hy
      omega), List.nil_append]
  rw [hcl, hcr]
  have habs : absorbLeft a v F = (a, F) := by
    unfold absorbLeft
    cases hz : F.getLast? with
    | none => rfl
    | some z =>
      dsimp only
      have hne : F ≠ [] := by
        intro hnil
        rw [hnil] at hz
        cases hz
      have hzl : z = F.getLast hne := by
        have := List.getLast?_eq_getLast F hne
        rw [this] at hz
        exact (Option.some_inj.mp hz).symm
      have hzmem : z ∈ F := by
        rw [hzl]
        exact List.getLast_mem hne
      rw [if_neg]
      intro hcond
      exact (hF z hzmem).2.2 hcond.1 hcond.2
  rw [habs]
  have habs2 : absorbRight k v R2 = (k, R2) := by
    unfold absorbRight
    cases R2 with
    | nil => rfl
    | cons y rest =>
      dsimp only
      rw [if_neg]
      intro hcond
      have := hR y (List.mem_cons_self y rest)
      omega
  rw [habs2]

/-- Removing a stored span that sits exactly between a left part that ends at
or before its start and a right part that starts at or after its stop. -/
theorem rmRemove_exact {F M : List (Span α)} {m : Span α} (hm : m.start < m.stop)
    (hF : ∀ x ∈ F, x.start < x.stop ∧ x.stop ≤ m.start)
    (hM : ∀ y ∈ M, m.stop ≤ y.start ∧ y.start < y.stop) :
    rmRemove m.start m.stop (F ++ m :: M) = some (F ++ M) := by
  rw [rmRemove, if_neg (by omega)]
  have hcl : cutLeft m.start (F ++ m :: M) = F := by
    rw [cutLeft_append, cutLeft_all (fun x hx => by
      have := hF x hx
      omega), cutLeft_nil (fun y hy => by
      rcases List.mem_cons.mp hy with rfl | hy1
      · omega
      · have := hM y hy1
        omega), List.append_nil]
  have hcr : cutRight m.stop (F ++ m :: M) = M := by
    rw [cutRight_append, cutRight_nil (fun x hx => by
      have := hF x hx
      omega)]
    have : cutRight m.stop (m :: M) = M := by
      rw [cutRight]
      rw [List.filterMap_cons]
      rw [if_neg (by omega)]
      exact cutRight_all fun y hy => by
        have := hM y hy
        omega
    rw [this, List.nil_append]
  rw [hcl, hcr]

theorem rmGet_exact {F M : List (Span α)} {m : Span α} (hm : m.start < m.stop)
    (hF : ∀ x ∈ F, ¬(x.start ≤ m.start ∧ m.start < x.stop)) :
    rmGet m.start (F ++ m :: M) = some m := by
  rw [rmGet]
  refine find?_append_cons ?_ ?_
  · intro x hx
    rw [decide_eq_false_iff_not]
    exact hF x hx
  · rw [decide_eq_true_eq]
    exact ⟨le_refl _, hm⟩

theorem rmInsert_wf [DecidableEq α] {s e : Nat} {v : α} {l : List (Span α)}
    (h : SpanWF l) (hse : s < e) :
    ∃ lr, rmInsert s e v l = some lr ∧ SpanWF lr := by
  rw [rmInsert, if_neg (by omega)]
  rcases absorbLeft_glue (v := v) (cutLeft_wf (k := s) h) cutLeft_stop_le with
    ⟨hA1, hA2, hA3, hA4⟩
  rcases absorbRight_glue (v := v) (cutRight_wf (e := e) h) cutRight_start_ge with
    ⟨hB1, hB2, hB3, hB4⟩
  refine ⟨_, rfl, ?_⟩
  refine wf_glue hA1 hB1 (by simp only; omega) ?_ ?_ ?_
  · exact hA3
  · exact hB3
  · intro x hx y hy
    have h1 := cutLeft_stop_le x (hA4 x hx)
    have h2 := cutRight_start_ge y (hB4 y hy)
    exact ⟨by omega, fun ht => by omega⟩

theorem wf_sublist {l1 l2 : List (Span α)} (h : SpanWF l2) (hs : l1.Sublist l2) :
    SpanWF l1 :=
  ⟨fun x hx => h.1 x (hs.subset hx), h.2.sublist hs⟩

theorem dropWhile_head_false {β : Type} (p : β → Bool) (l : List β) :
    l.dropWhile p = [] ∨ ∃ r R2, l.dropWhile p = r :: R2 ∧ p r = false := by
  induction l with
  | nil => exact Or.inl rfl
  | cons a l ih =>
    rw [List.dropWhile_cons]
    by_cases h : p a = true
    · rw [if_pos h]
      exact ih
    · rw [if_neg h]
      exact Or.inr ⟨a, l, rfl, by revert h; cases p a <;> simp⟩

/-- The mover loop of `split_off`: removing each span starting at or after the
split point from the working map and inserting it, rebased, at the end of the
new map. `F` is the part of the working map that stays. -/
theorem runRemoves_movers [DecidableEq α] {k : Nat} (M : List (Span α)) :
    ∀ (F N : List (Span α)),
      (∀ x ∈ F, x.stop ≤ k) →
      (∀ x ∈ M, k ≤ x.start) →
      SpanWF (F ++ M) →
      SpanWF (N ++ rebase k M) →
      runRemoves k (M.map fun x => ((x.start, x.stop), false)) (F ++ M, N)
        = some (F, N ++ rebase k M) := by
  induction M with
  | nil =>
    intro F N _ _ _ _
    simp [runRemoves, rebase]
  | cons m M2 ih =>
    intro F N hFk hMk hFM hN
    have hmmem : m ∈ F ++ m :: M2 := List.mem_append_right F (List.mem_cons_self m M2)
    have hmne : m.start < m.stop := hFM.1 m hmmem
    have hkm : k ≤ m.start := hMk m (List.mem_cons_self m M2)
    have hpa := List.pairwise_append.mp hFM.2
    have hcross : ∀ x ∈ F, x.stop ≤ m.start ∧ (x.stop = m.start → x.val ≠ m.val) :=
      fun x hx => hpa.2.2 x hx m (List.mem_cons_self m M2)
    have hMrel : ∀ y ∈ M2, m.stop ≤ y.start ∧ (m.stop = y.start → m.val ≠ y.val) :=
      (List.pairwise_cons.mp hpa.2.1).1
    have hget : rmGet m.start (F ++ m :: M2) = some m := by
      refine rmGet_exact hmne ?_
      intro x hx hcontra
      have h1 := hFk x hx
      omega
    have hrem : rmRemove m.start m.stop (F ++ m :: M2) = some (F ++ M2) := by
      refine rmRemove_exact hmne ?_ ?_
      · intro x hx
        exact ⟨hFM.1 x (List.mem_append_left _ hx), (hcross x hx).1⟩
      · intro y hy
        exact ⟨(hMrel y hy).1,
          hFM.1 y (List.mem_append_right F (List.mem_cons_of_mem m hy))⟩
    have hrmN : rebase k (m :: M2)
        = ⟨m.start - k, m.stop - k, m.val⟩ :: rebase k M2 := rfl
    have hNpa := List.pairwise_append.mp hN.2
    have hNcross : ∀ x ∈ N,
        x.stop ≤ m.start - k ∧ (x.stop = m.start - k → x.val ≠ m.val) := by
      intro x hx
      have := hNpa.2.2 x hx ⟨m.start - k, m.stop - k, m.val⟩
        (by rw [hrmN]; exact List.mem_cons_self _ _)
      exact this
    have hins : rmInsert (m.start - k) (m.stop - k) m.val N
        = some (N ++ [⟨m.start - k, m.stop - k, m.val⟩]) := by
      refine rmInsert_append_end (by omega) ?_
      intro x hx
      exact ⟨hN.1 x (List.mem_append_left _ hx), (hNcross x hx).1, (hNcross x hx).2⟩
    have hstep : splitStep k (F ++ m :: M2, N) ((m.start, m.stop), false)
        = some (F ++ M2, N ++ [⟨m.start - k, m.stop - k, m.val⟩]) := by
      simp only [splitStep, hget, hrem, hins]
      rfl
    rw [List.map_cons]
    rw [runRemoves, hstep]
    dsimp only
    have hsub : (F ++ M2).Sublist (F ++ m :: M2) :=
      (List.Sublist.refl F).append (List.sublist_cons_self m M2)
    have hFM2 : SpanWF (F ++ M2) := wf_sublist hFM hsub
    have hN2 : SpanWF ((N ++ [⟨m.start - k, m.stop - k, m.val⟩]) ++ rebase k M2) := by
      rw [List.append_assoc, List.singleton_append, ← hrmN]
      exact hN
    have hrec := ih F (N ++ [⟨m.start - k, m.stop - k, m.val⟩]) hFk
      (fun x hx => hMk x (List.mem_cons_of_mem m hx)) hFM2 hN2
    rw [hrec, List.append_assoc, List.singleton_append, ← hrmN]

/-- A well-formed span list splits into the spans ending at or before `k`
followed by the spans reaching past `k`; at most the first of the latter can
straddle `k`, all others start strictly after `k`. -/
theorem wf_split_at {k : Nat} {L : List (Span α)} (h : SpanWF L) :
    ∃ F R, L = F ++ R ∧ (∀ x ∈ F, x.stop ≤ k) ∧
      (R = [] ∨ ∃ r R2, R = r :: R2 ∧ k < r.stop ∧ ∀ y ∈ R2, k < y.start) := by
  refine ⟨L.takeWhile (fun x => decide (x.stop ≤ k)),
    L.dropWhile (fun x => decide (x.stop ≤ k)),
    (List.takeWhile_append_dropWhile ..).symm, ?_, ?_⟩
  · intro x hx
    have h1 := List.mem_takeWhile_imp hx
    simp only [decide_eq_true_eq] at h1
    exact h1
  · rcases dropWhile_head_false (fun x => decide (x.stop ≤ k)) L with hnil | ⟨r, R2, hRc, hpr⟩
    · exact Or.inl hnil
    · have hrk : k < r.stop := by
        have := decide_eq_false_iff_not.mp hpr
        omega
      have hwfR : SpanWF (r :: R2) := by
        rw [← hRc]
        exact wf_sublist h (List.dropWhile_sublist ..)
      refine Or.inr ⟨r, R2, hRc, hrk, ?_⟩
      intro y hy
      have := ((List.pairwise_cons.mp hwfR.2).1 y hy).1
      omega

/-- Characterisation of `AttrsList::split_off` on a well-formed map: the
original map keeps exactly the spans truncated at the split point, and the
returned map holds exactly the parts at or after the split point, rebased by
subtracting the split point. -/
theorem split_off_eq [DecidableEq α] (l : AttrsList α) (k : Nat)
    (h : SpanWF l.spans) :
    l.split_off k = some ({ l with spans := cutLeft k l.spans },
      { defaults := l.defaults, spans := rebase k (cutRight k l.spans) }) := by
  obtain ⟨F, R, hL, hFk, hRcase⟩ := wf_split_at (k := k) h
  have hFwf : SpanWF F := by
    refine wf_sublist h ?_
    rw [hL]
    exact List.sublist_append_left F R
  have hRwf : SpanWF R := by
    refine wf_sublist h ?_
    rw [hL]
    exact List.sublist_append_right F R
  have hFne : ∀ x ∈ F, x.start < x.stop := hFwf.1
  rcases hRcase with rfl | ⟨r, R2, rfl, hrk, hR2k⟩
  · -- no span reaches past `k`: nothing moves
    rw [List.append_nil] at hL
    have hrem0 : splitRemoves k l.spans = [] := by
      refine filterMap_eq_nil ?_
      intro x hx
      rw [hL] at hx
      rw [if_pos (hFk x hx)]
    have hcutL : cutLeft k l.spans = l.spans := by
      rw [hL]
      exact cutLeft_all fun x hx => by
        have h1 := hFne x hx
        have h2 := hFk x hx
        omega
    have hcutR : cutRight k l.spans = [] := by
      rw [hL]
      exact cutRight_nil fun x hx => by
        have := hFk x hx
        omega
    rw [AttrsList.split_off, hrem0, runRemoves, hcutL, hcutR]
    rfl
  · -- `r` reaches past `k`, `R2` are the movers
    have hR2wf : SpanWF R2 := wf_sublist hRwf (List.sublist_cons_self r R2)
    have hrmem : r ∈ l.spans := by
      rw [hL]
      exact List.mem_append_right F (List.mem_cons_self r R2)
    have hrne : r.start < r.stop := h.1 r hrmem
    have hR2ne : ∀ y ∈ R2, y.start < y.stop := hR2wf.1
    have hpa := List.pairwise_append.mp (by rw [hL] at h; exact h.2)
    have hcrossFr : ∀ x ∈ F, x.stop ≤ r.start ∧ (x.stop = r.start → x.val ≠ r.val) :=
      fun x hx => hpa.2.2 x hx r (List.mem_cons_self r R2)
    have hrR2 : ∀ y ∈ R2, r.stop ≤ y.start ∧ (r.stop = y.start → r.val ≠ y.val) :=
      (List.pairwise_cons.mp hpa.2.1).1
    by_cases hstrad : r.start < k
    · -- `r` straddles the split point
      have hremoves : splitRemoves k l.spans
          = ((r.start, r.stop), true) :: R2.map fun y => ((y.start, y.stop), false) := by
        rw [splitRemoves, hL, List.filterMap_append]
        rw [filterMap_eq_nil (fun x hx => by rw [if_pos (hFk x hx)])]
        rw [List.nil_append, List.filterMap_cons]
        rw [if_neg (by omega), if_neg (by omega)]
        rw [filterMap_eq_map (fun y hy => by
          have h1 := hR2k y hy
          have h2 := hR2ne y hy
          rw [if_neg (by omega), if_pos (by omega)])]
      have hget : rmGet r.start (F ++ r :: R2) = some r := by
        refine rmGet_exact hrne ?_
        intro x hx hcontra
        have := (hcrossFr x hx).1
        omega
      have hrem : rmRemove r.start r.stop (F ++ r :: R2) = some (F ++ R2) := by
        refine rmRemove_exact hrne ?_ ?_
        · intro x hx
          exact ⟨hFne x hx, (hcrossFr x hx).1⟩
        · intro y hy
          exact ⟨(hrR2 y hy).1, hR2ne y hy⟩
      have hins1 : rmInsert 0 (r.stop - k) r.val ([] : List (Span α))
          = some [⟨0, r.stop - k, r.val⟩] := by
        have := rmInsert_append_end (N := ([] : List (Span α)))
          (s := 0) (e := r.stop - k) (v := r.val) (by omega) (by simp)
        simpa using this
      have hins2 : rmInsert r.start k r.val (F ++ R2)
          = some (F ++ ⟨r.start, k, r.val⟩ :: R2) := by
        refine rmInsert_mid hstrad ?_ ?_
        · intro x hx
          refine ⟨hFne x hx, (hcrossFr x hx).1, ?_⟩
          intro ht hv
          exact (hcrossFr x hx).2 ht hv
        · intro y hy
          exact ⟨hR2k y hy, hR2ne y hy⟩
      have hstep : splitStep k (F ++ r :: R2, ([] : List (Span α)))
          ((r.start, r.stop), true)
          = some (F ++ ⟨r.start, k, r.val⟩ :: R2, [⟨0, r.stop - k, r.val⟩]) := by
        simp only [splitStep, hget, hrem, hins1, hins2]
        rfl
      have hmid : ∀ x ∈ F ++ [(⟨r.start, k, r.val⟩ : Span α)], x.stop ≤ k := by
        intro x hx
        rcases List.mem_append.mp hx with hx | hx
        · exact hFk x hx
        · rw [List.mem_singleton] at hx
          subst hx
          exact le_refl k
      have hwf1 : SpanWF ((F ++ [(⟨r.start, k, r.val⟩ : Span α)]) ++ R2) := by
        rw [List.append_assoc, List.singleton_append]
        refine wf_glue hFwf hR2wf (by dsimp only; omega) ?_ ?_ ?_
        · intro x hx
          exact ⟨(hcrossFr x hx).1, fun ht => (hcrossFr x hx).2 ht⟩
        · intro y hy
          have := hR2k y hy
          exact ⟨by dsimp only; omega, fun ht => by dsimp only at ht; omega⟩
        · intro x hx y hy
          have h1 := (hcrossFr x hx).1
          have h2 := hR2k y hy
          exact ⟨by omega, fun ht => by omega⟩
      have hwf2 : SpanWF ([(⟨0, r.stop - k, r.val⟩ : Span α)] ++ rebase k R2) := by
        rw [List.singleton_append]
        have := @wf_glue α [] (rebase k R2) ⟨0, r.stop - k, r.val⟩
          ⟨by simp, by simp⟩
          (rebase_wf hR2wf fun y hy => le_of_lt (hR2k y hy))
          (by dsimp only; omega) (by simp) ?_ (by simp)
        · simpa using this
        · intro y hy
          rcases List.mem_map.mp hy with ⟨y0, hy0, rfl⟩
          have h1 := (hrR2 y0 hy0).1
          have h2 := hR2k y0 hy0
          refine ⟨by dsimp only; omega, ?_⟩
          intro ht hv
          dsimp only at ht hv
          exact (hrR2 y0 hy0).2 (by omega) hv
      have hrun := runRemoves_movers R2 (F ++ [(⟨r.start, k, r.val⟩ : Span α)])
        [(⟨0, r.stop - k, r.val⟩ : Span α)] hmid
        (fun y hy => le_of_lt (hR2k y hy)) hwf1 hwf2
      have hcutL : cutLeft k (F ++ r :: R2) = F ++ [(⟨r.start, k, r.val⟩ : Span α)] := by
        rw [cutLeft_append]
        rw [cutLeft_all (fun x hx => by
          have h1 := hFne x hx
          have h2 := hFk x hx
          omega)]
        rw [cutLeft, List.filterMap_cons, if_pos hstrad,
          min_eq_right (le_of_lt hrk)]
        rw [show List.filterMap (fun x => if x.start < k
            then some (⟨x.start, min x.stop k, x.val⟩ : Span α) else none) R2 = []
          from filterMap_eq_nil (fun y hy => by
            rw [if_neg (by have := hR2k y hy; omega)])]
      have hcutR : cutRight k (F ++ r :: R2) = (⟨k, r.stop, r.val⟩ : Span α) :: R2 := by
        rw [cutRight_append]
        rw [cutRight_nil (fun x hx => by
          have := hFk x hx
          omega)]
        rw [List.nil_append, cutRight, List.filterMap_cons, if_pos hrk,
          max_eq_right (le_of_lt hstrad)]
        rw [show List.filterMap (fun x => if k < x.stop
            then some (⟨max x.start k, x.stop, x.val⟩ : Span α) else none) R2 = R2
          from cutRight_all (fun y hy => by
            have h1 := hR2k y hy
            have h2 := hR2ne y hy
            omega)]
      rw [AttrsList.split_off, hremoves, hL, runRemoves, hstep]
      dsimp only
      rw [show F ++ (⟨r.start, k, r.val⟩ : Span α) :: R2
          = (F ++ [(⟨r.start, k, r.val⟩ : Span α)]) ++ R2 by
        rw [List.append_assoc, List.singleton_append]]
      rw [hrun, hcutL, hcutR]
      rw [show rebase k ((⟨k, r.stop, r.val⟩ : Span α) :: R2)
          = (⟨0, r.stop - k, r.val⟩ : Span α) :: rebase k R2 by
        simp [rebase]]
      rw [List.singleton_append]
    · -- no straddler: everything in `R` moves
      have hrstart : k ≤ r.start := by omega
      have hRk : ∀ x ∈ r :: R2, k ≤ x.start := by
        intro x hx
        rcases List.mem_cons.mp hx with rfl | hx
        · exact hrstart
        · exact le_of_lt (hR2k x hx)
      have hremoves : splitRemoves k l.spans
          = (r :: R2).map fun y => ((y.start, y.stop), false) := by
        rw [splitRemoves, hL, List.filterMap_append]
        rw [filterMap_eq_nil (fun x hx => by rw [if_pos (hFk x hx)])]
        rw [List.nil_append]
        refine filterMap_eq_map ?_
        intro y hy
        have h1 := hRk y hy
        have h2 : k < y.stop := by
          rcases List.mem_cons.mp hy with rfl | hy2
          · exact hrk
          · have := hR2ne y hy2
            have := hR2k y hy2
            omega
        rw [if_neg (by omega), if_pos h1]
      have hN0 : SpanWF (([] : List (Span α)) ++ rebase k (r :: R2)) := by
        rw [List.nil_append]
        exact rebase_wf hRwf hRk
      have hrun := runRemoves_movers (r :: R2) F ([] : List (Span α)) hFk hRk
        (by rw [← hL]; exact h) hN0
      have hcutL : cutLeft k (F ++ r :: R2) = F := by
        rw [cutLeft_append]
        rw [cutLeft_all (fun x hx => by
          have h1 := hFne x hx
          have h2 := hFk x hx
          omega)]
        rw [cutLeft_nil (fun y hy => by
          have := hRk y hy
          omega), List.append_nil]
      have hcutR : cutRight k (F ++ r :: R2) = r :: R2 := by
        rw [cutRight_append]
        rw [cutRight_nil (fun x hx => by
          have := hFk x hx
          omega), List.nil_append]
        refine cutRight_all ?_
        intro y hy
        have h1 := hRk y hy
        rcases List.mem_cons.mp hy with rfl | hy2
        · exact ⟨hrk, h1⟩
        · have h2 := hR2ne y hy2
          have h3 := hR2k y hy2
          exact ⟨by omega, h1⟩
      rw [AttrsList.split_off, hremoves, hL, hrun, hcutL, hcutR]
      rw [List.nil_append]

theorem wf_disjoint {l : List (Span α)} (h : SpanWF l) : spansDisjoint l :=
  h.2.imp fun hxy => Or.inl hxy.1

theorem add_span_wf [DecidableEq α] {l l2 : AttrsList α} {s e : Nat} {v : α}
    (h : SpanWF l.spans) (h2 : l.add_span s e v = some l2) : SpanWF l2.spans := by
  rw [AttrsList.add_span] at h2
  by_cases hse : s = e
  · rw [if_pos hse] at h2
    cases h2
    exact h
  · rw [if_neg hse] at h2
    rcases hlt : Nat.lt_or_ge s e with hlt1 | hlt1
    · rcases rmInsert_wf (v := v) h hlt1 with ⟨lr, hlr, hwf⟩
      rw [hlr] at h2
      cases h2
      exact hwf
    · rw [rmInsert, if_pos (by omega)] at h2
      cases h2

theorem split_off_wf [DecidableEq α] {l : AttrsList α} {k : Nat}
    {p : AttrsList α × AttrsList α}
    (h : SpanWF l.spans) (h2 : l.split_off k = some p) :
    SpanWF p.1.spans ∧ SpanWF p.2.spans := by
  rw [split_off_eq l k h] at h2
  cases h2
  exact ⟨cutLeft_wf h, rebase_wf (cutRight_wf h) cutRight_start_ge⟩

theorem applyOp_wf [DecidableEq α] {l l2 : AttrsList α} {op : SpanOp α}
    (h : SpanWF l.spans) (h2 : applyOp l op = some l2) : SpanWF l2.spans := by
  cases op with
  | add s e v => exact add_span_wf h h2
  | split k keepNew =>
    rw [applyOp] at h2
    cases hp : l.split_off k with
    | none => rw [hp] at h2; cases h2
    | some p =>
      rw [hp] at h2
      cases h2
      rcases split_off_wf h hp with ⟨h1, h2⟩
      cases keepNew with
      | false => exact h1
      | true => exact h2

theorem applyOps_wf [DecidableEq α] {ops : List (SpanOp α)} :
    ∀ {l l2 : AttrsList α}, SpanWF l.spans → applyOps ops l = some l2 →
      SpanWF l2.spans := by
  induction ops with
  | nil =>
    intro l l2 h h2
    cases h2
    exact h
  | cons op rest ih =>
    intro l l2 h h2
    rw [applyOps] at h2
    cases hop : applyOp l op with
    | none => rw [hop] at h2; cases h2
    | some l1 =>
      rw [hop] at h2
      exact ih (applyOp_wf h hop) h2

/-- On a map with disjoint spans, `get_span` returns the value of the unique
covering span if one exists, else the default. -/
theorem get_span_spec [DecidableEq α] {l : AttrsList α}
    (hd : spansDisjoint l.spans) (i : Nat) :
    (∃ x, x ∈ l.spans ∧ x.start ≤ i ∧ i < x.stop ∧ l.get_span i = x.val ∧
      ∀ y ∈ l.spans, y.start ≤ i → i < y.stop → y = x) ∨
    ((∀ x ∈ l.spans, ¬(x.start ≤ i ∧ i < x.stop)) ∧ l.get_span i = l.defaults) := by
  cases hf : rmGet i l.spans with
  | none =>
    refine Or.inr ⟨?_, ?_⟩
    · intro x hx hcontra
      have := List.find?_eq_none.mp hf x hx
      simp only [decide_eq_true_eq] at this
      exact this hcontra
    · rw [AttrsList.get_span, hf]
      rfl
  | some x =>
    have hxmem : x ∈ l.spans := List.mem_of_find?_eq_some hf
    have hpx := List.find?_some hf
    simp only [decide_eq_true_eq] at hpx
    refine Or.inl ⟨x, hxmem, hpx.1, hpx.2, by rw [AttrsList.get_span, hf]; rfl, ?_⟩
    intro y hy hy1 hy2
    by_contra hne
    have hsymm : Symmetric fun a b : Span α => a.stop ≤ b.start ∨ b.stop ≤ a.start :=
      fun a b hab => hab.symm
    have := hd.forall hsymm hy hxmem hne
    rcases this with h1 | h1 <;> omega

/-- C3: on a well-formed map holding a span `[a, b)` with value `v` and
`a < k < b`, `split_off k` keeps `a..k` with value `v` in the original map and
puts `0..b-k` with value `v` in the new map; spans ending at or before `k`
stay untouched, spans starting at or after `k` move to the new map rebased by
`-k` with the same value; afterwards the original map has no span past `k`
and both maps have pairwise non-overlapping spans. -/
theorem claim3_split_off_exact {α : Type} [DecidableEq α] (l : AttrsList α)
    (a b k : Nat) (v : α)
    (hwf : SpanWF l.spans) (hmem : (⟨a, b, v⟩ : Span α) ∈ l.spans)
    (hak : a < k) (hkb : k < b) :
    ∃ p, l.split_off k = some p ∧
      (⟨a, k, v⟩ : Span α) ∈ p.1.spans ∧
      (⟨0, b - k, v⟩ : Span α) ∈ p.2.spans ∧
      (∀ x ∈ l.spans, x.stop ≤ k → x ∈ p.1.spans) ∧
      (∀ x ∈ l.spans, k ≤ x.start →
        (⟨x.start - k, x.stop - k, x.val⟩ : Span α) ∈ p.2.spans) ∧
      (∀ x ∈ p.1.spans, x.stop ≤ k) ∧
      spansDisjoint p.1.spans ∧ spansDisjoint p.2.spans := by
  refine ⟨_, split_off_eq l k hwf, ?_, ?_, ?_, ?_, ?_, ?_, ?_⟩
  · show (⟨a, k, v⟩ : Span α) ∈ cutLeft k l.spans
    refine List.mem_filterMap.mpr ⟨⟨a, b, v⟩, hmem, ?_⟩
    rw [if_pos]
    · rw [show min b k = k from min_eq_right (le_of_lt hkb)]
    · exact hak
  · show (⟨0, b - k, v⟩ : Span α) ∈ rebase k (cutRight k l.spans)
    have hcr : (⟨k, b, v⟩ : Span α) ∈ cutRight k l.spans := by
      refine List.mem_filterMap.mpr ⟨⟨a, b, v⟩, hmem, ?_⟩
      rw [if_pos]
      · rw [show max a k = k from max_eq_right (le_of_lt hak)]
      · exact hkb
    refine List.mem_map.mpr ⟨⟨k, b, v⟩, hcr, ?_⟩
    rw [show k - k = 0 from Nat.sub_self k]
  · intro x hx hxk
    show x ∈ cutLeft k l.spans
    refine List.mem_filterMap.mpr ⟨x, hx, ?_⟩
    have h1 := hwf.1 x hx
    rw [if_pos (by omega), min_eq_left hxk]
  · intro x hx hkx
    show (⟨x.start - k, x.stop - k, x.val⟩ : Span α) ∈ rebase k (cutRight k l.spans)
    have h1 := hwf.1 x hx
    have hcr : x ∈ cutRight k l.spans := by
      refine List.mem_filterMap.mpr ⟨x, hx, ?_⟩
      rw [if_pos (by omega), max_eq_left hkx]
    exact List.mem_map.mpr ⟨x, hcr, rfl⟩
  · exact cutLeft_stop_le
  · exact wf_disjoint (cutLeft_wf hwf)
  · exact wf_disjoint (rebase_wf (cutRight_wf hwf) cutRight_start_ge)

/-- Closed instance of C3 at a concrete input, discharging its hypotheses. -/
theorem claim3_split_off_exact_witness :
    (SpanWF [(⟨1, 4, 7⟩ : Span Nat)] ∧ (⟨1, 4, 7⟩ : Span Nat) ∈ [(⟨1, 4, 7⟩ : Span Nat)] ∧
      1 < 2 ∧ 2 < 4) ∧
    (∃ p, (AttrsList.mk (0 : Nat) [⟨1, 4, 7⟩]).split_off 2 = some p ∧
      (⟨1, 2, 7⟩ : Span Nat) ∈ p.1.spans ∧
      (⟨0, 2, 7⟩ : Span Nat) ∈ p.2.spans ∧
      (∀ x ∈ [(⟨1, 4, 7⟩ : Span Nat)], x.stop ≤ 2 → x ∈ p.1.spans) ∧
      (∀ x ∈ [(⟨1, 4, 7⟩ : Span Nat)], 2 ≤ x.start →
        (⟨x.start - 2, x.stop - 2, x.val⟩ : Span Nat) ∈ p.2.spans) ∧
      (∀ x ∈ p.1.spans, x.stop ≤ 2) ∧
      spansDisjoint p.1.spans ∧ spansDisjoint p.2.spans) :=
  ⟨⟨by decide, by decide, by decide, by decide⟩,
    claim3_split_off_exact (AttrsList.mk (0 : Nat) [⟨1, 4, 7⟩]) 1 4 2 7
      (by decide) (by decide) (by decide) (by decide)⟩

/-- C4: after any finite sequence of `add_span`/`split_off` calls on a
well-formed map, no two stored spans overlap and `get_span` is total: it
returns the value of the unique covering stored span when one exists, else the
default; and the concrete scenario: `add_span(1..3, bold)` on a fresh line
makes `get_span` yield default, bold, bold, default at indices 0..3. -/
theorem claim4_span_map_invariant {α : Type} [DecidableEq α]
    (ops : List (SpanOp α)) (l l2 : AttrsList α)
    (hwf : SpanWF l.spans) (happ : applyOps ops l = some l2) :
    spansDisjoint l2.spans ∧
    (∀ i, (∃ x, x ∈ l2.spans ∧ x.start ≤ i ∧ i < x.stop ∧ l2.get_span i = x.val ∧
        ∀ y ∈ l2.spans, y.start ≤ i → i < y.stop → y = x) ∨
      ((∀ x ∈ l2.spans, ¬(x.start ≤ i ∧ i < x.stop)) ∧
        l2.get_span i = l2.defaults)) ∧
    (∀ d bold : α, ((AttrsList.new d).add_span 1 3 bold).map
        (fun lb => (lb.get_span 0, lb.get_span 1, lb.get_span 2, lb.get_span 3))
      = some (d, bold, bold, d)) := by
  have hwf2 := applyOps_wf hwf happ
  refine ⟨wf_disjoint hwf2, fun i => get_span_spec (wf_disjoint hwf2) i, ?_⟩
  intro d bold
  rfl

/-- Closed instance of C4 at a concrete input, discharging its hypotheses. -/
theorem claim4_span_map_invariant_witness :
    (SpanWF (AttrsList.new (0 : Nat)).spans ∧
      applyOps [SpanOp.add 1 3 9, SpanOp.split 2 true] (AttrsList.new (0 : Nat))
        = some (AttrsList.mk 0 [⟨0, 1, 9⟩])) ∧
    spansDisjoint (AttrsList.mk (0 : Nat) [⟨0, 1, 9⟩]).spans ∧
    (∀ i, (∃ x, x ∈ (AttrsList.mk (0 : Nat) [⟨0, 1, 9⟩]).spans ∧ x.start ≤ i ∧
        i < x.stop ∧ (AttrsList.mk (0 : Nat) [⟨0, 1, 9⟩]).get_span i = x.val ∧
        ∀ y ∈ (AttrsList.mk (0 : Nat) [⟨0, 1, 9⟩]).spans,
          y.start ≤ i → i < y.stop → y = x) ∨
      ((∀ x ∈ (AttrsList.mk (0 : Nat) [⟨0, 1, 9⟩]).spans,
          ¬(x.start ≤ i ∧ i < x.stop)) ∧
        (AttrsList.mk (0 : Nat) [⟨0, 1, 9⟩]).get_span i
          = (AttrsList.mk (0 : Nat) [⟨0, 1, 9⟩]).defaults)) ∧
    (∀ d bold : Nat, ((AttrsList.new d).add_span 1 3 bold).map
        (fun lb => (lb.get_span 0, lb.get_span 1, lb.get_span 2, lb.get_span 3))
      = some (d, bold, bold, d)) :=
  ⟨⟨by decide, by decide⟩,
    claim4_span_map_invariant [SpanOp.add 1 3 9, SpanOp.split 2 true]
      (AttrsList.new (0 : Nat)) (AttrsList.mk 0 [⟨0, 1, 9⟩])
      (by decide) (by decide)⟩

/-- C7: `add_span` with a zero-width range (`start == end`) is a no-op that
leaves the stored spans unchanged and signals no error; in particular
`add_span(1..1, v)` on a fresh map leaves `spans()` empty. -/
theorem claim7_zero_width_add_span_noop {α : Type} [DecidableEq α] :
    (∀ (l : AttrsList α) (s : Nat) (v : α), l.add_span s s v = some l) ∧
    (∀ (d v : α), ((AttrsList.new d).add_span 1 1 v).map AttrsList.spans = some []) := by
  constructor
  · intro l s v
    rw [AttrsList.add_span, if_pos rfl]
  · intro d v
    rfl

/-! ### Lemmas on text splitting and `set_text` -/

theorem utf8Len_pos (c : Char) : 1 ≤ utf8Len c := by
  rw [utf8Len]
  split
  · omega
  split
  · omega
  split
  · omega
  · omega

theorem utf8Length_pos {l : List Char} (h : l ≠ []) : 0 < utf8Length l := by
  cases l with
  | nil => exact absurd rfl h
  | cons c rest =>
    have := utf8Len_pos c
    simp only [utf8Length, List.map_cons, List.sum_cons]
    omega

theorem stripCR_fst (seg : List Char) : (stripCR seg).1 = stripSeg seg := by
  rw [stripCR, stripSeg]
  by_cases hra : seg.getLast? = some '\r'
  · have hne : seg ≠ [] := by
      intro hnil
      rw [hnil] at hra
      cases hra
    rw [if_pos ⟨utf8Length_pos hne, hra⟩, if_pos hra]
  · rw [if_neg (fun hc => hra hc.2), if_neg hra]

theorem splitOnNewline_ne_nil (l : List Char) : splitOnNewline l ≠ [] := by
  cases l with
  | nil => simp [splitOnNewline]
  | cons c rest =>
    rw [splitOnNewline]
    split <;> simp

theorem splitOnNewline_length (l : List Char) :
    (splitOnNewline l).length = l.count '\n' + 1 := by
  induction l with
  | nil => rfl
  | cons c rest ih =>
    rw [splitOnNewline]
    by_cases hc : c = '\n'
    · subst hc
      rw [if_pos rfl]
      simp only [List.length_cons, List.count_cons_self]
      omega
    · rw [if_neg hc]
      simp only [List.length_cons, List.length_tail]
      have h1 := splitOnNewline_ne_nil rest
      have h2 : 0 < (splitOnNewline rest).length := List.length_pos.mpr h1
      rw [List.count_cons_of_ne (fun he => hc he.symm)]
      omega

theorem split_terminator_nil_iff (text : List Char) :
    split_terminator text = [] ↔ text = [] := by
  constructor
  · intro h
    rw [split_terminator] at h
    by_cases hl : text.getLast? = some '\n'
    · rw [if_pos hl] at h
      exact absurd h (splitOnNewline_ne_nil _)
    · rw [if_neg hl] at h
      by_cases ht : text = []
      · exact ht
      · rw [if_neg ht] at h
        exact absurd h (splitOnNewline_ne_nil _)
  · intro h
    subst h
    rfl

theorem split_terminator_length {text : List Char} (h : text ≠ []) :
    (split_terminator text).length
      = if text.getLast? = some '\n' then text.count '\n'
        else text.count '\n' + 1 := by
  rw [split_terminator]
  by_cases hl : text.getLast? = some '\n'
  · rw [if_pos hl, if_pos hl, splitOnNewline_length]
    have hg : text.getLast h = '\n' := by
      have h2 := List.getLast?_eq_getLast text h
      rw [h2] at hl
      exact Option.some_inj.mp hl
    have hd : text.dropLast ++ [text.getLast h] = text :=
      List.dropLast_append_getLast h
    have hcount : text.count '\n' = text.dropLast.count '\n' + 1 := by
      conv_lhs => rw [← hd]
      rw [hg, List.count_append]
      simp
    omega
  · rw [if_neg hl, if_neg hl, if_neg h, splitOnNewline_length]

theorem setTextGo_spec [DecidableEq α] (segs : List (List Char)) :
    ∀ (attrs : AttrsList α) (si : Nat), SpanWF attrs.spans →
      ∃ lines rem, (setTextGo segs attrs si :
          Option (List (TextLayoutLine α σ) × AttrsList α)) = some (lines, rem) ∧
        lines.length = segs.length ∧
        lines.map TextLayoutLine.text = segs.map stripSeg ∧
        SpanWF rem.spans := by
  induction segs with
  | nil =>
    intro attrs si h
    exact ⟨[], attrs, rfl, rfl, rfl, h⟩
  | cons seg rest ih =>
    intro attrs si h
    rw [setTextGo]
    rw [split_off_eq attrs
      (utf8Length (stripCR seg).1 + 1 + (if (stripCR seg).2 then 1 else 0)) h]
    have hwf2 : SpanWF (AttrsList.mk attrs.defaults (rebase
        (utf8Length (stripCR seg).1 + 1 + (if (stripCR seg).2 then 1 else 0))
        (cutRight (utf8Length (stripCR seg).1 + 1 + (if (stripCR seg).2 then 1 else 0))
          attrs.spans))).spans :=
      rebase_wf (cutRight_wf h) cutRight_start_ge
    obtain ⟨lines, rem, hrec, hlen, hmap, hwfr⟩ :=
      ih _ (si + utf8Length seg + 1 + (if (stripCR seg).2 then 1 else 0)) hwf2
    dsimp only
    rw [hrec]
    refine ⟨_, rem, rfl, ?_, ?_, hwfr⟩
    · simp [hlen]
    · simp only [List.map_cons, hmap, stripCR_fst]
      rfl

/-! ### Lemmas on the line caches and `shape_until` -/

theorem layout_fst_text (fs : FontSystem α σ) (l : TextLayoutLine α σ)
    (w : ℚ) (wr : Wrap) : (TextLayoutLine.layout fs l w wr).1.text = l.text := by
  rcases l with ⟨tx, a, si, so, lo⟩
  cases lo <;> cases so <;> rfl

theorem layout_fst_attrs (fs : FontSystem α σ) (l : TextLayoutLine α σ)
    (w : ℚ) (wr : Wrap) : (TextLayoutLine.layout fs l w wr).1.attrs = l.attrs := by
  rcases l with ⟨tx, a, si, so, lo⟩
  cases lo <;> cases so <;> rfl

theorem layout_fst_shape_some {fs : FontSystem α σ} {l : TextLayoutLine α σ}
    {w : ℚ} {wr : Wrap} {s : ShapeLine σ} (h : l.shape_opt = some s) :
    (TextLayoutLine.layout fs l w wr).1.shape_opt = some s := by
  rcases l with ⟨tx, a, si, so, lo⟩
  subst h
  cases lo <;> rfl

theorem layout_of_layout_some {fs : FontSystem α σ} {l : TextLayoutLine α σ}
    {w : ℚ} {wr : Wrap} {lay : List LayoutLine} (h : l.layout_opt = some lay) :
    TextLayoutLine.layout fs l w wr = (l, lay) := by
  rcases l with ⟨tx, a, si, so, lo⟩
  subst h
  rfl

theorem layout_reset_shaped {fs : FontSystem α σ} {l : TextLayoutLine α σ}
    {w : ℚ} {wr : Wrap} {s : ShapeLine σ} (h : l.shape_opt = some s) :
    (TextLayoutLine.layout fs l.reset_layout w wr).1
      = { l with layout_opt := some (fs.wrap_line s w wr) } := by
  rcases l with ⟨tx, a, si, so, lo⟩
  subst h
  rfl

theorem shapeUntilGo_length (fs : FontSystem α σ) (w : ℚ) (wr : Wrap) (bound : Int) :
    ∀ (ls : List (TextLayoutLine α σ)) (t : Int) (r : Nat),
      (shapeUntilGo fs w wr bound ls t r).1.length = ls.length := by
  intro ls
  induction ls with
  | nil => intro t r; rfl
  | cons line rest ih =>
    intro t r
    rw [shapeUntilGo]
    by_cases hb : bound ≤ t
    · rw [if_pos hb]
    · rw [if_neg hb]
      dsimp only
      rw [List.length_cons, List.length_cons, ih]

theorem shapeUntilGo_textmap (fs : FontSystem α σ) (w : ℚ) (wr : Wrap) (bound : Int) :
    ∀ (ls : List (TextLayoutLine α σ)) (t : Int) (r : Nat),
      (shapeUntilGo fs w wr bound ls t r).1.map TextLayoutLine.text
        = ls.map TextLayoutLine.text := by
  intro ls
  induction ls with
  | nil => intro t r; rfl
  | cons line rest ih =>
    intro t r
    rw [shapeUntilGo]
    by_cases hb : bound ≤ t
    · rw [if_pos hb]
    · rw [if_neg hb]
      dsimp only
      rw [List.map_cons, List.map_cons, ih, layout_fst_text]

theorem shapeUntilGo_get (fs : FontSystem α σ) (w : ℚ) (wr : Wrap) (bound : Int) :
    ∀ (ls : List (TextLayoutLine α σ)) (t : Int) (r : Nat) (i : Nat),
      (shapeUntilGo fs w wr bound ls t r).1[i]? = ls[i]? ∨
      (shapeUntilGo fs w wr bound ls t r).1[i]?
        = ls[i]?.map fun l => (TextLayoutLine.layout fs l w wr).1 := by
  intro ls
  induction ls with
  | nil => intro t r i; exact Or.inl rfl
  | cons line rest ih =>
    intro t r i
    rw [shapeUntilGo]
    by_cases hb : bound ≤ t
    · rw [if_pos hb]
      exact Or.inl rfl
    · rw [if_neg hb]
      dsimp only
      cases i with
      | zero => exact Or.inr (by simp)
      | succ j =>
        rw [List.getElem?_cons_succ, List.getElem?_cons_succ]
        exact ih _ _ j

theorem i32wrap_id {x : Int} (h1 : -2147483648 ≤ x) (h2 : x ≤ 2147483647) :
    i32wrap x = x := by
  rw [i32wrap, Int.emod_eq_of_lt (by omega) (by omega)]
  omega

theorem shapeUntilGo_total (fs : FontSystem α σ) (w : ℚ) (wr : Wrap) (bound : Int) :
    ∀ (ls : List (TextLayoutLine α σ)) (t : Int) (r : Nat),
      0 ≤ t → t + (sumLayoutLen fs w wr ls : Int) ≤ 2147483647 →
      t ≤ (shapeUntilGo fs w wr bound ls t r).2.1 ∧
      (shapeUntilGo fs w wr bound ls t r).2.1
        ≤ t + (sumLayoutLen fs w wr ls : Int) := by
  intro ls
  induction ls with
  | nil =>
    intro t r h1 h2
    rw [shapeUntilGo]
    refine ⟨le_refl t, ?_⟩
    simp [sumLayoutLen]
  | cons line rest ih =>
    intro t r h1 h2
    have hsum : sumLayoutLen fs w wr (line :: rest)
        = (TextLayoutLine.layout fs line w wr).2.length + sumLayoutLen fs w wr rest := by
      simp [sumLayoutLen]
    rw [shapeUntilGo]
    by_cases hb : bound ≤ t
    · rw [if_pos hb]
      dsimp only
      have : (0 : Int) ≤ (sumLayoutLen fs w wr (line :: rest) : Int) := Int.ofNat_nonneg _
      exact ⟨le_refl t, by omega⟩
    · rw [if_neg hb]
      dsimp only
      rw [hsum] at h2
      push_cast at h2
      have hlen : (0 : Int) ≤ ((TextLayoutLine.layout fs line w wr).2.length : Int) :=
        Int.ofNat_nonneg _
      have hrest : (0 : Int) ≤ (sumLayoutLen fs w wr rest : Int) := Int.ofNat_nonneg _
      have hw1 : i32wrap ((TextLayoutLine.layout fs line w wr).2.length : Int)
          = ((TextLayoutLine.layout fs line w wr).2.length : Int) :=
        i32wrap_id (by omega) (by omega)
      rw [hw1]
      have hw2 : i32wrap (t + ((TextLayoutLine.layout fs line w wr).2.length : Int))
          = t + ((TextLayoutLine.layout fs line w wr).2.length : Int) :=
        i32wrap_id (by omega) (by omega)
      rw [hw2]
      have hih := ih (t + ((TextLayoutLine.layout fs line w wr).2.length : Int))
        (if line.shape_opt.isNone then r + 1 else r) (by omega) (by omega)
      rw [hsum]
      push_cast
      omega

/-- `shape_until_scroll` written out: lay out lines up to the (wrapped)
`scroll + i32::MAX` bound, then clamp the scroll. -/
theorem shape_until_scroll_def (fs : FontSystem α σ) (tl : TextLayout α σ) :
    TextLayout.shape_until_scroll fs tl = { tl with
      lines := (shapeUntilGo fs tl.width tl.wrap
        (i32wrap (tl.scroll + i32Max)) tl.lines 0 0).1,
      redraw := if 0 < (shapeUntilGo fs tl.width tl.wrap
          (i32wrap (tl.scroll + i32Max)) tl.lines 0 0).2.2 then true else tl.redraw,
      scroll := max 0 (min (i32wrap ((shapeUntilGo fs tl.width tl.wrap
          (i32wrap (tl.scroll + i32Max)) tl.lines 0 0).2.1 - (i32Max - 1)))
        tl.scroll) } := rfl

theorem shape_until_scroll_scroll_of_nonpos (fs : FontSystem α σ)
    (tl : TextLayout α σ) (h : tl.scroll ≤ 0) :
    (TextLayout.shape_until_scroll fs tl).scroll = 0 := by
  rw [shape_until_scroll_def]
  dsimp only
  omega

theorem shape_until_scroll_scroll_zero (fs : FontSystem α σ) (tl : TextLayout α σ)
    (h : sumLayoutLen fs tl.width tl.wrap tl.lines ≤ 2147483646) :
    (TextLayout.shape_until_scroll fs tl).scroll = 0 := by
  rw [shape_until_scroll_def]
  dsimp only
  have hb := shapeUntilGo_total fs tl.width tl.wrap (i32wrap (tl.scroll + i32Max))
    tl.lines 0 0 (le_refl 0) (by omega)
  have hid : i32wrap ((shapeUntilGo fs tl.width tl.wrap
      (i32wrap (tl.scroll + i32Max)) tl.lines 0 0).2.1 - (i32Max - 1))
      = (shapeUntilGo fs tl.width tl.wrap
        (i32wrap (tl.scroll + i32Max)) tl.lines 0 0).2.1 - (i32Max - 1) := by
    refine i32wrap_id ?_ ?_
    · have : i32Max = 2147483647 := rfl
      push_cast at hb
      omega
    · have : i32Max = 2147483647 := rfl
      push_cast at hb
      omega
  rw [hid]
  have : i32Max = 2147483647 := rfl
  push_cast at hb
  omega

/-- C5: `set_text` always leaves at least one Line Record and resets the
scroll offset to 0 (stated for every well-formed attribute list, on which
`set_text` cannot panic). -/
theorem claim5_set_text_nonempty {α σ : Type} [DecidableEq α] (fs : FontSystem α σ)
    (tl : TextLayout α σ) (text : List Char) (attrs : AttrsList α)
    (hwf : SpanWF attrs.spans) :
    ∃ tl2, TextLayout.set_text fs tl text attrs = some tl2 ∧
      1 ≤ tl2.lines.length ∧ tl2.scroll = 0 := by
  obtain ⟨lines, rem, hgo, hlen, hmap, hwfr⟩ :=
    setTextGo_spec (σ := σ) (split_terminator text) attrs 0 hwf
  rw [TextLayout.set_text, hgo]
  dsimp only
  refine ⟨_, rfl, ?_, ?_⟩
  · rw [shape_until_scroll_def]
    dsimp only
    rw [shapeUntilGo_length]
    by_cases hemp : lines.isEmpty
    · rw [if_pos hemp]
      exact le_refl 1
    · rw [if_neg hemp]
      have : lines ≠ [] := by
        intro hnil
        rw [hnil] at hemp
        exact hemp rfl
      have := List.length_pos.mpr this
      omega
  · exact shape_until_scroll_scroll_of_nonpos fs _ (le_refl 0)

/-- Closed instance of C5 at a concrete input, discharging its hypothesis. -/
theorem claim5_set_text_nonempty_witness :
    SpanWF (AttrsList.new (0 : Nat)).spans ∧
    (∃ tl2, TextLayout.set_text fsT tlBase ['h', 'i'] (AttrsList.new 0) = some tl2 ∧
      1 ≤ tl2.lines.length ∧ tl2.scroll = 0) :=
  ⟨by decide, claim5_set_text_nonempty fsT tlBase ['h', 'i'] (AttrsList.new 0) (by decide)⟩

/-- C2 (amended): after `set_text`, reading back the Line Records gives the
`split_terminator('\n')` segments with one trailing `'\r'` stripped (so a
trailing `\r` is stripped even in a segment with no `\n` terminator), with
the empty text giving one empty line; the line count is the number of `\n`
terminators plus one, except that a trailing `\n` does not open a new line. -/
theorem claim2_set_text_roundtrip {α σ : Type} [DecidableEq α] (fs : FontSystem α σ)
    (tl : TextLayout α σ) (text : List Char) (attrs : AttrsList α)
    (hwf : SpanWF attrs.spans) :
    ∃ tl2, TextLayout.set_text fs tl text attrs = some tl2 ∧
      tl2.lines.length = (if text.getLast? = some '\n' then text.count '\n'
        else text.count '\n' + 1) ∧
      tl2.lines.map TextLayoutLine.text
        = (if (split_terminator text).isEmpty then [[]]
           else (split_terminator text).map stripSeg) := by
  obtain ⟨lines, rem, hgo, hlen, hmap, hwfr⟩ :=
    setTextGo_spec (σ := σ) (split_terminator text) attrs 0 hwf
  rw [TextLayout.set_text, hgo]
  dsimp only
  refine ⟨_, rfl, ?_, ?_⟩
  · rw [shape_until_scroll_def]
    dsimp only
    rw [shapeUntilGo_length]
    by_cases hemp : lines.isEmpty
    · rw [if_pos hemp]
      have hnil : lines = [] := by
        cases lines with
        | nil => rfl
        | cons a l => exact absurd hemp (by simp)
      rw [hnil] at hlen
      have hsegs : split_terminator text = [] := by
        cases hs : split_terminator text with
        | nil => rfl
        | cons a l =>
          rw [hs] at hlen
          exact absurd hlen.symm (by simp)
      have htext : text = [] := (split_terminator_nil_iff text).mp hsegs
      subst htext
      rfl
    · rw [if_neg hemp]
      have hnn : lines ≠ [] := by
        intro hnil
        rw [hnil] at hemp
        exact hemp rfl
      have htext : text ≠ [] := by
        intro hnil
        subst hnil
        have : lines.length = 0 := by rw [hlen]; rfl
        exact hnn (List.length_eq_zero.mp this)
      rw [hlen, split_terminator_length htext]
  · rw [shape_until_scroll_def]
    dsimp only
    rw [shapeUntilGo_textmap]
    by_cases hemp : lines.isEmpty
    · rw [if_pos hemp]
      have hnil : lines = [] := by
        cases lines with
        | nil => rfl
        | cons a l => exact absurd hemp (by simp)
      rw [hnil] at hlen
      have hsegs : split_terminator text = [] := by
        cases hs : split_terminator text with
        | nil => rfl
        | cons a l =>
          rw [hs] at hlen
          exact absurd hlen.symm (by simp)
      rw [hsegs]
      rfl
    · rw [if_neg hemp]
      have hnn : lines ≠ [] := by
        intro hnil
        rw [hnil] at hemp
        exact hemp rfl
      have hsegs : ¬ (split_terminator text).isEmpty := by
        intro hsege
        have : split_terminator text = [] := by
          cases hs : split_terminator text with
          | nil => rfl
          | cons a l => rw [hs] at hsege; exact absurd hsege (by simp)
        rw [this] at hlen
        exact hnn (List.length_eq_zero.mp hlen)
      rw [if_neg hsegs]
      exact hmap

/-- Counterexample to C2 as stated: the text `"a\n"` has one line terminator,
so the claim predicts two Line Records, but `split_terminator` drops the
trailing terminator and `set_text` produces a single line. -/
theorem claim2_counterexample :
    (TextLayout.set_text fsT tlBase ['a', '\n'] (AttrsList.new 0)).map
        (fun tl2 => tl2.lines.length) = some 1 ∧
    List.count '\n' ['a', '\n'] + 1 = 2 ∧ (1 : Nat) ≠ 2 := by
  refine ⟨by decide, by decide, by decide⟩

/-- Closed instance of the amended C2 at a concrete input (a CRLF line and a
trailing lone `\r`), discharging its hypothesis. -/
theorem claim2_set_text_roundtrip_witness :
    SpanWF (AttrsList.new (0 : Nat)).spans ∧
    (∃ tl2, TextLayout.set_text fsT tlBase ['a', '\r', '\n', 'b', '\r']
        (AttrsList.new 0) = some tl2 ∧
      tl2.lines.length = (if (['a', '\r', '\n', 'b', '\r'] : List Char).getLast?
          = some '\n' then List.count '\n' ['a', '\r', '\n', 'b', '\r']
        else List.count '\n' ['a', '\r', '\n', 'b', '\r'] + 1) ∧
      tl2.lines.map TextLayoutLine.text
        = (if (split_terminator ['a', '\r', '\n', 'b', '\r']).isEmpty then [[]]
           else (split_terminator ['a', '\r', '\n', 'b', '\r']).map stripSeg)) :=
  ⟨by decide, claim2_set_text_roundtrip fsT tlBase ['a', '\r', '\n', 'b', '\r']
    (AttrsList.new 0) (by decide)⟩

/-- C8: `set_size` clamps both dimensions to at least 0; when the clamped
size equals the current size nothing changes at all; when it differs, every
Line Record keeps its text and attributes, a previously shaped line keeps its
shape cache unchanged and gets its layout cache rebuilt at the new width
(only the wrap/layout cache is invalidated), and `shape_until_scroll` is
re-run (which may additionally fill the caches of previously unshaped
lines). -/
theorem set_size_changed (fs : FontSystem α σ) (tl : TextLayout α σ) (w h : ℚ)
    (hch : max w 0 ≠ tl.width ∨ max h 0 ≠ tl.height) :
    TextLayout.set_size fs tl w h
      = TextLayout.shape_until_scroll fs
          (TextLayout.relayout fs { tl with width := max w 0, height := max h 0 }) := by
  rw [TextLayout.set_size]
  rw [if_pos hch]

theorem shape_until_scroll_get (fs : FontSystem α σ) (tl : TextLayout α σ) (i : Nat) :
    (TextLayout.shape_until_scroll fs tl).lines[i]? = tl.lines[i]? ∨
    (TextLayout.shape_until_scroll fs tl).lines[i]?
      = tl.lines[i]?.map fun l => (TextLayoutLine.layout fs l tl.width tl.wrap).1 := by
  rw [shape_until_scroll_def]
  exact shapeUntilGo_get fs tl.width tl.wrap (i32wrap (tl.scroll + i32Max)) tl.lines 0 0 i

theorem relayout_get (fs : FontSystem α σ) (tl : TextLayout α σ) (i : Nat) :
    (TextLayout.relayout fs tl).lines[i]?
      = tl.lines[i]?.map fun l =>
          if l.shape_opt.isSome then
            (TextLayoutLine.layout fs l.reset_layout tl.width tl.wrap).1
          else l := by
  rw [TextLayout.relayout]
  dsimp only
  rw [List.getElem?_map]

theorem claim8_set_size_frame {α σ : Type} (fs : FontSystem α σ)
    (tl : TextLayout α σ) (w h : ℚ) :
    ((TextLayout.set_size fs tl w h).width = max w 0 ∧
      (TextLayout.set_size fs tl w h).height = max h 0) ∧
    (max w 0 = tl.width → max h 0 = tl.height → TextLayout.set_size fs tl w h = tl) ∧
    ((max w 0 ≠ tl.width ∨ max h 0 ≠ tl.height) →
      ∀ (i : Nat) (l : TextLayoutLine α σ), tl.lines[i]? = some l →
        ∃ l2 : TextLayoutLine α σ,
          (TextLayout.set_size fs tl w h).lines[i]? = some l2 ∧
          l2.text = l.text ∧ l2.attrs = l.attrs ∧
          ∀ s, l.shape_opt = some s → l2.shape_opt = some s ∧
            l2.layout_opt = some (fs.wrap_line s (max w 0) tl.wrap)) := by
  by_cases hch : max w 0 ≠ tl.width ∨ max h 0 ≠ tl.height
  · rw [set_size_changed fs tl w h hch]
    refine ⟨⟨?_, ?_⟩, ?_, ?_⟩
    · rfl
    · rfl
    · intro hw hh
      rcases hch with hc | hc
      · exact absurd hw hc
      · exact absurd hh hc
    · intro _ i l hl
      have hreli : (TextLayout.relayout fs
          { tl with width := max w 0, height := max h 0 }).lines[i]?
          = some (if l.shape_opt.isSome then
            (TextLayoutLine.layout fs l.reset_layout (max w 0) tl.wrap).1 else l) := by
        rw [relayout_get, hl]
        rfl
      cases hso : l.shape_opt with
      | none =>
        have hif : (if l.shape_opt.isSome then
            (TextLayoutLine.layout fs l.reset_layout (max w 0) tl.wrap).1 else l)
            = l := by
          rw [if_neg]
          rw [hso]
          simp
        rcases shape_until_scroll_get fs
            (TextLayout.relayout fs { tl with width := max w 0, height := max h 0 }) i
          with hcase | hcase
        · rw [hreli, hif] at hcase
          refine ⟨l, hcase, rfl, rfl, ?_⟩
          intro s hs
          simp [hso] at hs
        · rw [hreli, hif] at hcase
          have hcase3 : (TextLayout.shape_until_scroll fs
              (TextLayout.relayout fs
                { tl with width := max w 0, height := max h 0 })).lines[i]?
              = some ((TextLayoutLine.layout fs l (max w 0) tl.wrap).1) := hcase
          refine ⟨_, hcase3, layout_fst_text fs l (max w 0) tl.wrap,
            layout_fst_attrs fs l (max w 0) tl.wrap, ?_⟩
          intro s hs
          simp [hso] at hs
      | some s =>
        have h1 : l.shape_opt.isSome = true := by
          rw [hso]
          rfl
        have hif : (if l.shape_opt.isSome then
            (TextLayoutLine.layout fs l.reset_layout (max w 0) tl.wrap).1 else l)
            = { l with layout_opt := some (fs.wrap_line s (max w 0) tl.wrap) } := by
          rw [if_pos h1]
          exact layout_reset_shaped hso
        rcases shape_until_scroll_get fs
            (TextLayout.relayout fs { tl with width := max w 0, height := max h 0 }) i
          with hcase | hcase
        · rw [hreli, hif] at hcase
          refine ⟨_, hcase, rfl, rfl, ?_⟩
          intro s2 hs2
          cases hs2
          exact ⟨hso, rfl⟩
        · rw [hreli, hif] at hcase
          have hcase3 : (TextLayout.shape_until_scroll fs
              (TextLayout.relayout fs
                { tl with width := max w 0, height := max h 0 })).lines[i]?
              = some ((TextLayoutLine.layout fs
                  { l with layout_opt := some (fs.wrap_line s (max w 0) tl.wrap) }
                  (max w 0) tl.wrap).1) := hcase
          refine ⟨_, hcase3, rfl, rfl, ?_⟩
          intro s2 hs2
          cases hs2
          exact ⟨hso, rfl⟩
  · rw [TextLayout.set_size]
    rw [if_neg hch]
    push_neg at hch
    refine ⟨⟨hch.1.symm, hch.2.symm⟩, fun _ _ => rfl, fun hcontra => ?_⟩
    rcases hcontra with hc | hc
    · exact absurd hch.1 hc
    · exact absurd hch.2 hc

/-- Closed instance of C8 at a concrete input, discharging the hypotheses of
its changed-size case. -/
theorem claim8_set_size_frame_witness :
    (max (60 : ℚ) 0 ≠ tlH.width ∨ max (50 : ℚ) 0 ≠ tlH.height) ∧
    tlH.lines[0]? = some lineH ∧
    (∃ l2 : TextLayoutLine Nat Unit,
      (TextLayout.set_size fsT tlH 60 50).lines[0]? = some l2 ∧
      l2.text = lineH.text ∧ l2.attrs = lineH.attrs ∧
      ∀ s, lineH.shape_opt = some s → l2.shape_opt = some s ∧
        l2.layout_opt = some (fsT.wrap_line s (max 60 0) tlH.wrap)) :=
  ⟨by decide, by decide,
    (claim8_set_size_frame fsT tlH 60 50).2.2 (by decide) 0 lineH (by decide)⟩

/-- C1 (amended): `set_scroll` stores its argument without any clamping, so
the stated invariant fails right after a `set_scroll` call (see the
counterexample); the clamp into `[0, max(0, total_layout_lines - 1)]` is
what `shape_until_scroll` enforces, and because the line budget is
`i32::MAX`, it in fact resets the scroll to 0 (proved under the realistic
bound that the document produces at most `i32::MAX - 1` layout lines, which
rules out `i32` wrap-around).  `set_size` and `set_wrap` re-run
`shape_until_scroll` whenever they change anything, so they re-establish the
invariant. -/
theorem claim1_scroll_clamp_amended {α σ : Type} :
    (∀ (tl : TextLayout α σ) (s : Int), (TextLayout.set_scroll tl s).scroll = s) ∧
    (∀ (fs : FontSystem α σ) (tl : TextLayout α σ),
      sumLayoutLen fs tl.width tl.wrap tl.lines ≤ 2147483646 →
      (TextLayout.shape_until_scroll fs tl).scroll = 0 ∧
      0 ≤ (TextLayout.shape_until_scroll fs tl).scroll ∧
      (TextLayout.shape_until_scroll fs tl).scroll
        ≤ max 0 ((totalLayoutLines (TextLayout.shape_until_scroll fs tl) : Int) - 1)) ∧
    (∀ (fs : FontSystem α σ) (tl : TextLayout α σ) (w h : ℚ),
      (max w 0 ≠ tl.width ∨ max h 0 ≠ tl.height) →
      sumLayoutLen fs (max w 0) tl.wrap
        (TextLayout.relayout fs { tl with width := max w 0, height := max h 0 }).lines
          ≤ 2147483646 →
      (TextLayout.set_size fs tl w h).scroll = 0) ∧
    (∀ (fs : FontSystem α σ) (tl : TextLayout α σ) (wr : Wrap), wr ≠ tl.wrap →
      sumLayoutLen fs tl.width wr
        (TextLayout.relayout fs { tl with wrap := wr }).lines ≤ 2147483646 →
      (TextLayout.set_wrap fs tl wr).scroll = 0) := by
  refine ⟨?_, ?_, ?_, ?_⟩
  · intro tl s
    rw [TextLayout.set_scroll]
    by_cases hs : s ≠ tl.scroll
    · rw [if_pos hs]
    · rw [if_neg hs]
      push_neg at hs
      exact hs.symm
  · intro fs tl hsum
    have h0 := shape_until_scroll_scroll_zero fs tl hsum
    refine ⟨h0, by omega, ?_⟩
    rw [h0]
    exact le_max_left 0 _
  · intro fs tl w h hch hsum
    rw [set_size_changed fs tl w h hch]
    exact shape_until_scroll_scroll_zero fs _ hsum
  · intro fs tl wr hch hsum
    rw [TextLayout.set_wrap, if_pos hch]
    exact shape_until_scroll_scroll_zero fs _ hsum

/-- Counterexample to C1 as stated: on the freshly built buffer (one layout
line in total), `set_scroll(-1)` leaves the scroll at `-1`, which is outside
`[0, max(0, total_layout_lines - 1)] = [0, 0]`. -/
theorem claim1_counterexample :
    ((TextLayout.new fsT 0).map fun tl => (TextLayout.set_scroll tl (-1)).scroll)
      = some (-1) ∧
    ((TextLayout.new fsT 0).map fun tl =>
      totalLayoutLines (TextLayout.set_scroll tl (-1))) = some 1 ∧
    ¬(0 ≤ (-1 : Int) ∧ (-1 : Int) ≤ max 0 ((1 : Int) - 1)) := by
  refine ⟨by decide, by decide, by decide⟩

/-- Closed instance of the amended C1 at a concrete input, discharging its
hypotheses. -/
theorem claim1_scroll_clamp_amended_witness :
    (sumLayoutLen fsT tlH.width tlH.wrap tlH.lines ≤ 2147483646 ∧
      (max (60 : ℚ) 0 ≠ tlH.width ∨ max (50 : ℚ) 0 ≠ tlH.height) ∧
      sumLayoutLen fsT (max 60 0) tlH.wrap
        (TextLayout.relayout fsT
          { tlH with width := max 60 0, height := max 50 0 }).lines ≤ 2147483646) ∧
    (TextLayout.set_scroll tlH (-7)).scroll = -7 ∧
    (TextLayout.shape_until_scroll fsT tlH).scroll = 0 ∧
    (TextLayout.set_size fsT tlH 60 50).scroll = 0 :=
  ⟨⟨by decide, by decide, by decide⟩,
    (claim1_scroll_clamp_amended (α := Nat) (σ := Unit)).1 tlH (-7),
    ((claim1_scroll_clamp_amended (α := Nat) (σ := Unit)).2.1 fsT tlH (by decide)).1,
    (claim1_scroll_clamp_amended (α := Nat) (σ := Unit)).2.2.1 fsT tlH 60 50
      (by decide) (by decide)⟩

/-! ### Lemmas on hit testing -/

theorem hitRun_line (seg : Seg) (x : ℚ) (run : LayoutRun) :
    (hitRun seg x run).line = run.line_i := by
  rw [hitRun]
  split
  · rfl
  · split
    · rfl
    · rfl

theorem cursor_right_line (run : LayoutRun) (g : LayoutGlyph) :
    (LayoutRun.cursor_from_glyph_right run g).line = run.line_i := by
  rw [LayoutRun.cursor_from_glyph_right]
  split <;> rfl

theorem hitGo_some_line (seg : Seg) (x y : ℚ) :
    ∀ (rs : List LayoutRun) (fr : Bool) (acc : Option Cursor) (c : Cursor),
      hitGo seg x y rs fr acc = some c →
      (∃ run ∈ rs, c.line = run.line_i) ∨ acc = some c := by
  intro rs
  induction rs with
  | nil =>
    intro fr acc c h
    exact Or.inr h
  | cons run rest ih =>
    intro fr acc c h
    rw [hitGo] at h
    by_cases h1 : fr = true ∧ y < run.line_y - run.line_height
    · rw [if_pos h1] at h
      rcases ih _ _ _ h with hx | hx
      · obtain ⟨r, hr, hc⟩ := hx
        exact Or.inl ⟨r, List.mem_cons_of_mem _ hr, hc⟩
      · refine Or.inl ⟨run, List.mem_cons_self run rest, ?_⟩
        have hcv : Cursor.new run.line_i 0 = c := Option.some_inj.mp hx
        rw [← hcv]
        rfl
    · rw [if_neg h1] at h
      by_cases h2 : run.line_y - run.line_height ≤ y ∧ y < run.line_y
      · rw [if_pos h2] at h
        refine Or.inl ⟨run, List.mem_cons_self run rest, ?_⟩
        have hcv : hitRun seg x run = c := Option.some_inj.mp h
        rw [← hcv]
        exact hitRun_line seg x run
      · rw [if_neg h2] at h
        by_cases h3 : rest = [] ∧ run.line_y < y
        · rw [if_pos h3] at h
          rcases ih _ _ _ h with hx | hx
          · obtain ⟨r, hr, hc⟩ := hx
            exact Or.inl ⟨r, List.mem_cons_of_mem _ hr, hc⟩
          · refine Or.inl ⟨run, List.mem_cons_self run rest, ?_⟩
            have hcv := Option.some_inj.mp hx
            rw [← hcv]
            cases hg : run.glyphs.getLast? with
            | some g => exact cursor_right_line run g
            | none => rfl
        · rw [if_neg h3] at h
          rcases ih _ _ _ h with hx | hx
          · obtain ⟨r, hr, hc⟩ := hx
            exact Or.inl ⟨r, List.mem_cons_of_mem _ hr, hc⟩
          · exact Or.inr hx

theorem hitGo_skip_above (seg : Seg) (x y : ℚ) :
    ∀ (rs : List LayoutRun) (acc : Option Cursor),
      (∀ r ∈ rs, y < r.line_y - r.line_height ∧ 0 ≤ r.line_height) →
      hitGo seg x y rs false acc = acc := by
  intro rs
  induction rs with
  | nil =>
    intro acc _
    rfl
  | cons run rest ih =>
    intro acc h
    have hr := h run (List.mem_cons_self run rest)
    rw [hitGo]
    rw [if_neg (fun hc => Bool.false_ne_true hc.1)]
    rw [if_neg (fun hc => absurd hr.1 (not_lt.mpr hc.1))]
    rw [if_neg (fun hc => by
      have h1 := hr.1
      have h2 := hr.2
      have h3 := hc.2
      linarith)]
    exact ih acc fun r hrr => h r (List.mem_cons_of_mem _ hrr)

theorem hitGo_below (seg : Seg) (x y : ℚ) :
    ∀ (rs : List LayoutRun) (fr : Bool) (acc : Option Cursor) (rl : LayoutRun),
      rs.getLast? = some rl →
      (∀ r ∈ rs, r.line_y < y ∧ 0 ≤ r.line_height) →
      hitGo seg x y rs fr acc
        = some (match rl.glyphs.getLast? with
            | some g => LayoutRun.cursor_from_glyph_right rl g
            | none => Cursor.new rl.line_i 0) := by
  intro rs
  induction rs with
  | nil =>
    intro fr acc rl hlast _
    cases hlast
  | cons run rest ih =>
    intro fr acc rl hlast h
    have hr := h run (List.mem_cons_self run rest)
    rw [hitGo]
    rw [if_neg (fun hc => by
      have h1 := hr.1
      have h2 := hr.2
      have h3 := hc.2
      linarith)]
    rw [if_neg (fun hc => absurd hr.1 (not_lt.mpr (le_of_lt hc.2)))]
    cases rest with
    | nil =>
      rw [if_pos ⟨rfl, hr.1⟩]
      have hrl : rl = run := by
        have : (run :: ([] : List LayoutRun)).getLast? = some run := rfl
        rw [this] at hlast
        exact (Option.some_inj.mp hlast).symm
      subst hrl
      rfl
    | cons r2 rest2 =>
      rw [if_neg (fun hc => by cases hc.1)]
      refine ih fr acc rl ?_ fun r hrr => h r (List.mem_cons_of_mem _ hrr)
      rw [← List.getLast?_cons_cons]
      exact hlast

/-- C6: when `y` lies above every visible run's vertical band, `hit` returns
a cursor at the document start (the first run's line, byte index 0); when `y`
lies below every run's baseline, `hit` returns the cursor after the last
run's last glyph — for an LTR run, byte index equal to that glyph's end
(line heights are assumed non-negative, as real font metrics are). -/
theorem claim6_hit_above_below {α σ : Type} (tl : TextLayout α σ) (seg : Seg)
    (x y : ℚ)
    (hh : ∀ r ∈ TextLayout.layout_runs tl, 0 ≤ r.line_height) :
    (∀ r0, (TextLayout.layout_runs tl).head? = some r0 →
      (∀ r ∈ TextLayout.layout_runs tl, y < r.line_y - r.line_height) →
      TextLayout.hit seg tl x y = some (Cursor.new r0.line_i 0)) ∧
    (∀ rl g, (TextLayout.layout_runs tl).getLast? = some rl →
      rl.glyphs.getLast? = some g →
      (∀ r ∈ TextLayout.layout_runs tl, r.line_y < y) →
      TextLayout.hit seg tl x y = some (LayoutRun.cursor_from_glyph_right rl g) ∧
      (rl.rtl = false →
        TextLayout.hit seg tl x y = some ⟨rl.line_i, g.stop, Affinity.Before⟩)) := by
  constructor
  · intro r0 hr0 hab
    rw [TextLayout.hit]
    cases hrs : TextLayout.layout_runs tl with
    | nil =>
      rw [hrs] at hr0
      cases hr0
    | cons run rest =>
      rw [hrs] at hr0 hab hh
      have hrun : run = r0 := by
        have : (run :: rest).head? = some run := rfl
        rw [this] at hr0
        exact Option.some_inj.mp hr0
      subst hrun
      rw [hitGo]
      rw [if_pos ⟨rfl, hab run (List.mem_cons_self run rest)⟩]
      exact hitGo_skip_above seg x y rest _ fun r hrr =>
        ⟨hab r (List.mem_cons_of_mem _ hrr), hh r (List.mem_cons_of_mem _ hrr)⟩
  · intro rl g hlast hg hbelow
    have hb := hitGo_below seg x y (TextLayout.layout_runs tl) true none rl hlast
      fun r hr => ⟨hbelow r hr, hh r hr⟩
    have hmain : TextLayout.hit seg tl x y
        = some (LayoutRun.cursor_from_glyph_right rl g) := by
      rw [TextLayout.hit, hb, hg]
    refine ⟨hmain, ?_⟩
    intro hrtl
    rw [hmain, LayoutRun.cursor_from_glyph_right,
      if_neg (fun hc => Bool.false_ne_true (hrtl ▸ hc))]
    rfl

theorem layout_runs_tlH : TextLayout.layout_runs tlH = [runH] := by
  norm_num [TextLayout.layout_runs, tlH, lineH, runsGo, lineRuns, runH]

/-- Closed instance of C6 at a concrete input, discharging its hypotheses:
a click above the band and a click below the baseline of `tlH`. -/
theorem claim6_hit_above_below_witness :
    ((∀ r ∈ TextLayout.layout_runs tlH, 0 ≤ r.line_height) ∧
      (TextLayout.layout_runs tlH).head? = some runH ∧
      (∀ r ∈ TextLayout.layout_runs tlH, (-5 : ℚ) < r.line_y - r.line_height) ∧
      (TextLayout.layout_runs tlH).getLast? = some runH ∧
      runH.glyphs.getLast? = some (⟨0, 1, 0, 10, false⟩ : LayoutGlyph) ∧
      (∀ r ∈ TextLayout.layout_runs tlH, r.line_y < (9 : ℚ))) ∧
    TextLayout.hit charSeg tlH 5 (-5) = some (Cursor.new runH.line_i 0) ∧
    TextLayout.hit charSeg tlH 5 9 = some ⟨runH.line_i, 1, Affinity.Before⟩ :=
  ⟨⟨by norm_num [layout_runs_tlH, runH], by simp [layout_runs_tlH],
      by norm_num [layout_runs_tlH, runH], by simp [layout_runs_tlH], rfl,
      by norm_num [layout_runs_tlH, runH]⟩,
    (claim6_hit_above_below tlH charSeg 5 (-5)
        (by norm_num [layout_runs_tlH, runH])).1 runH
      (by simp [layout_runs_tlH]) (by norm_num [layout_runs_tlH, runH]),
    ((claim6_hit_above_below tlH charSeg 5 9
        (by norm_num [layout_runs_tlH, runH])).2 runH
      ⟨0, 1, 0, 10, false⟩ (by simp [layout_runs_tlH]) rfl
      (by norm_num [layout_runs_tlH, runH])).2 rfl⟩

/-- C9: `Cursor::new` constructs a cursor with affinity `Before`, and
`Affinity::default()` is `Before`, while the matched-run branch of `hit`
starts from affinity `After`: a click on the leading half of an LTR glyph
resolves with affinity `After`. -/
theorem claim9_cursor_affinity_defaults :
    (∀ line index : Nat, Cursor.new line index = ⟨line, index, Affinity.Before⟩) ∧
    (default : Affinity) = Affinity.Before ∧
    TextLayout.hit charSeg tlH 2 5 = some ⟨0, 0, Affinity.After⟩ :=
  ⟨fun _ _ => rfl, rfl, by
    norm_num [TextLayout.hit, layout_runs_tlH, hitGo, hitRun, runH, scanGlyphs,
      charSeg, charSegGo, egcScan, utf8Slice, utf8SliceGo, utf8Len, utf8Length,
      Cursor.new]⟩

/-- C10: when `layout_runs()` yields no runs, `hit` returns `None`; and a
`Some` cursor is only ever produced from a visible run (its line index is
some visible run's line index). -/
theorem claim10_hit_needs_runs {α σ : Type} (tl : TextLayout α σ) (seg : Seg)
    (x y : ℚ) :
    (TextLayout.layout_runs tl = [] → TextLayout.hit seg tl x y = none) ∧
    (∀ c, TextLayout.hit seg tl x y = some c →
      ∃ run ∈ TextLayout.layout_runs tl, c.line = run.line_i) := by
  constructor
  · intro h
    rw [TextLayout.hit, h]
    rfl
  · intro c h
    rw [TextLayout.hit] at h
    rcases hitGo_some_line seg x y _ true none c h with hx | hx
    · exact hx
    · cases hx

/-- Closed instance of C10 at a concrete input, discharging its hypothesis:
a buffer whose only line has no caches yields no runs, and `hit` is `None`. -/
theorem claim10_hit_needs_runs_witness :
    TextLayout.layout_runs tlU = [] ∧ TextLayout.hit charSeg tlU 3 4 = none :=
  ⟨by decide, (claim10_hit_needs_runs tlU charSeg 3 4).1 (by decide)⟩

end CText
